import Mathlib

/-!
Shallow embedding of the `semantic-push` daily trading-signal scanner
(`app/services/strategy_engine.py`, `app/services/fmp_client.py`,
`app/api/routes.py`, `app/db/models.py`) together with proofs of the
spec claims about it.

Modelling conventions:
* Python `Decimal` prices and returns are embedded as `ℚ` (the spec and the
  code use exact decimal arithmetic for all threshold comparisons).
* Python `datetime.date` is a record of year/month/day; `date.isoformat()`
  is re-implemented character by character, and date subtraction
  (`(a - b).days`) goes through the proleptic-Gregorian day number.
* Timestamps (`datetime`) are embedded as `ℤ` (only differences and
  comparisons against a TTL matter).
* The database is a record of explicit row lists; `INSERT .. ON CONFLICT DO
  NOTHING` becomes a conditional append, SQL `UPDATE .. WHERE` becomes a
  `List.map` with a per-row conditional.
* Fallible market-data calls return `Except`; a `.error` outcome is what the
  per-symbol `try/except` blocks catch.
-/

namespace SemanticPush

/-! ### Dates (`datetime.date`) -/

/-- A calendar date, as Python's `datetime.date` (year 1..9999). -/
structure Date where
  year : ℕ
  month : ℕ
  day : ℕ
deriving DecidableEq, Repr

/-- The ranges Python's `datetime.date` constructor enforces (day upper
bound relaxed to 31; we never need month-length precision). -/
def Date.Valid (d : Date) : Prop :=
  (1 ≤ d.year ∧ d.year ≤ 9999) ∧ (1 ≤ d.month ∧ d.month ≤ 12) ∧
    (1 ≤ d.day ∧ d.day ≤ 31)

instance (d : Date) : Decidable d.Valid := by
  unfold Date.Valid; infer_instance

/-- The two characters of `"%02d" % n` (for `n < 100`). -/
def pad2Chars (n : ℕ) : List Char :=
  [Nat.digitChar (n / 10 % 10), Nat.digitChar (n % 10)]

/-- The four characters of `"%04d" % n` (for `n < 10000`). -/
def pad4Chars (n : ℕ) : List Char :=
  [Nat.digitChar (n / 1000 % 10), Nat.digitChar (n / 100 % 10),
   Nat.digitChar (n / 10 % 10), Nat.digitChar (n % 10)]

/-- Characters of `date.isoformat()`: `YYYY-MM-DD`. -/
def Date.isoChars (d : Date) : List Char :=
  pad4Chars d.year ++ '-' :: (pad2Chars d.month ++ '-' :: pad2Chars d.day)

/-- Embeds `date.isoformat()` (also `date.strftime("%Y-%m-%d")`). -/
def Date.iso (d : Date) : String :=
  String.mk d.isoChars

/-- Proleptic-Gregorian day number (Howard Hinnant's `days_from_civil`,
restricted to years ≥ 1 so that all intermediate values are naturals).
Python's `date.toordinal()` differs from this only by a constant, so date
differences agree. -/
def Date.dayNumber (d : Date) : ℤ :=
  let y : ℕ := if d.month ≤ 2 then d.year - 1 else d.year
  let era : ℕ := y / 400
  let yoe : ℕ := y - era * 400
  let mp : ℕ := (d.month + 9) % 12
  let doy : ℕ := (153 * mp + 2) / 5 + d.day - 1
  let doe : ℕ := yoe * 365 + yoe / 4 - yoe / 100 + doy
  (era * 146097 + doe : ℤ) - 719468

/-- Python `(a - b).days` for dates. -/
def dateDiffDays (a b : Date) : ℤ :=
  a.dayNumber - b.dayNumber

/-! ### Enumerations (`app/db/models.py`) -/

/-- Embeds `PositionStatus` enum. -/
inductive PositionStatus where
  | OPEN : PositionStatus
  | CLOSED : PositionStatus
deriving DecidableEq, Repr

/-- Embeds `PositionStatus.value`. -/
def PositionStatus.value : PositionStatus → String
  | .OPEN => "OPEN"
  | .CLOSED => "CLOSED"

/-- Embeds `ExitReason` enum. -/
inductive ExitReason where
  | STOP_LOSS : ExitReason
  | TIME_EXIT : ExitReason
deriving DecidableEq, Repr

/-- Embeds `ExitReason.value`. -/
def ExitReason.value : ExitReason → String
  | .STOP_LOSS => "STOP_LOSS"
  | .TIME_EXIT => "TIME_EXIT"

/-- Embeds `AlertType` enum. -/
inductive AlertType where
  | ENTRY : AlertType
  | EXIT : AlertType
deriving DecidableEq, Repr

/-- Embeds `AlertType.value`. -/
def AlertType.value : AlertType → String
  | .ENTRY => "ENTRY"
  | .EXIT => "EXIT"

/-! ### Strategy constants (`strategy_engine.py` lines 17-20) -/

/-- Embeds `ENTRY_RETURN_MIN = Decimal("-0.30")`. -/
def ENTRY_RETURN_MIN : ℚ := -30 / 100

/-- Embeds `ENTRY_RETURN_MAX = Decimal("-0.05")`. -/
def ENTRY_RETURN_MAX : ℚ := -5 / 100

/-- Embeds `STOP_LOSS_THRESHOLD = Decimal("-0.10")`. -/
def STOP_LOSS_THRESHOLD : ℚ := -10 / 100

/-- Embeds `MAX_HOLDING_DAYS = 50`. -/
def MAX_HOLDING_DAYS : ℤ := 50

/-! ### Pure signal evaluation -/

/-- Embeds `earnings_return = as_of_close / prev_close - 1` (line 153). -/
def earningsReturn (asOfClose prevClose : ℚ) : ℚ :=
  asOfClose / prevClose - 1

/-- The entry condition `ENTRY_RETURN_MIN <= earnings_return <= ENTRY_RETURN_MAX`
checked on line 156. -/
def entrySignal (asOfClose prevClose : ℚ) : Bool :=
  decide (ENTRY_RETURN_MIN ≤ earningsReturn asOfClose prevClose) &&
    decide (earningsReturn asOfClose prevClose ≤ ENTRY_RETURN_MAX)

/-- The exit decision of `scan_exits` (lines 240-255): stop-loss checked
first, then time exit, else no reason. -/
def evalExitReason (pnl : ℚ) (holdingDays : ℤ) : Option ExitReason :=
  if pnl ≤ STOP_LOSS_THRESHOLD then some .STOP_LOSS
  else if holdingDays ≥ MAX_HOLDING_DAYS then some .TIME_EXIT
  else none

/-- Exit evaluation for one open position: `pnl = close / entry_price - 1`,
`holding_days = (as_of - entry_date).days` (lines 237-238), then
`evalExitReason`. -/
def evaluateExit (entryPrice currentClose : ℚ) (entryDate asOfDate : Date) :
    Option ExitReason :=
  evalExitReason (currentClose / entryPrice - 1) (dateDiffDays asOfDate entryDate)

/-! ### Event keys (`strategy_engine.py` lines 76-84) -/

/-- Embeds `_generate_entry_event_key`. -/
def generateEntryEventKey (symbol : String) (entryDate : Date) : String :=
  "ENTRY|" ++ symbol ++ "|" ++ entryDate.iso

/-- Embeds `_generate_exit_event_key` (the callers always pass an
`ExitReason.value` string for the reason). -/
def generateExitEventKey (symbol : String) (entryDate exitDate : Date)
    (exitReason : String) : String :=
  "EXIT|" ++ symbol ++ "|" ++ entryDate.iso ++ "|" ++ exitDate.iso ++ "|" ++ exitReason

/-! ### Alert message formatting (`strategy_engine.py` lines 86-112) -/

/-- Banker's rounding to an integer (`Decimal` fixed-point formatting uses
`ROUND_HALF_EVEN`). -/
def roundHalfEven (x : ℚ) : ℤ :=
  let f := x.floor
  let r := x - f
  if r < 1 / 2 then f
  else if 1 / 2 < r then f + 1
  else if f % 2 = 0 then f else f + 1

/-- Embeds `f"{x:.2f}"` on an exact decimal value `x`. -/
def formatFixed2 (x : ℚ) : String :=
  let n := roundHalfEven (x * 100)
  let sign := if x < 0 then "-" else ""
  sign ++ toString (n.natAbs / 100) ++ "." ++ String.mk (pad2Chars (n.natAbs % 100))

/-- Embeds `_format_entry_message`. -/
def formatEntryMessage (symbol : String) (asOf : Date)
    (earningsRet entryPrice : ℚ) : String :=
  "[ENTRY] " ++ symbol ++ " " ++ asOf.iso ++ "\n" ++
    "Earnings day return: " ++ formatFixed2 (earningsRet * 100) ++ "%\n" ++
    "Entry price (close): " ++ formatFixed2 entryPrice

/-- Embeds `_format_exit_message`. -/
def formatExitMessage (symbol : String) (exitDate : Date) (exitReason : String)
    (pnl exitPrice : ℚ) (holdingDays : ℤ) : String :=
  let reasonLabel :=
    if exitReason = ExitReason.STOP_LOSS.value then "STOP_LOSS" else "TIME_EXIT"
  "[EXIT-" ++ reasonLabel ++ "] " ++ symbol ++ " " ++ exitDate.iso ++ "\n" ++
    "PnL: " ++ formatFixed2 (pnl * 100) ++ "%\n" ++
    "Exit price (close): " ++ formatFixed2 exitPrice ++ "\n" ++
    "Holding days: " ++ toString holdingDays

/-! ### Injectivity of the date rendering -/

theorem string_data_inj {s t : String} (h : s.data = t.data) : s = t := by
  cases s; cases t; exact congrArg String.mk h

theorem digitChar_injOn {a b : ℕ} (ha : a < 10) (hb : b < 10)
    (h : Nat.digitChar a = Nat.digitChar b) : a = b := by
  have key : ∀ x y : Fin 10, Nat.digitChar x = Nat.digitChar y → x = y := by decide
  exact congrArg Fin.val (key ⟨a, ha⟩ ⟨b, hb⟩ h)

theorem pad2Chars_inj {a b : ℕ} (ha : a < 100) (hb : b < 100)
    (h : pad2Chars a = pad2Chars b) : a = b := by
  simp only [pad2Chars, List.cons.injEq, and_true] at h
  have h1 := digitChar_injOn (Nat.mod_lt _ (by norm_num)) (Nat.mod_lt _ (by norm_num)) h.1
  have h2 := digitChar_injOn (Nat.mod_lt _ (by norm_num)) (Nat.mod_lt _ (by norm_num)) h.2
  omega

theorem pad4Chars_inj {a b : ℕ} (ha : a < 10000) (hb : b < 10000)
    (h : pad4Chars a = pad4Chars b) : a = b := by
  simp only [pad4Chars, List.cons.injEq, and_true] at h
  have h1 := digitChar_injOn (Nat.mod_lt _ (by norm_num)) (Nat.mod_lt _ (by norm_num)) h.1
  have h2 := digitChar_injOn (Nat.mod_lt _ (by norm_num)) (Nat.mod_lt _ (by norm_num)) h.2.1
  have h3 := digitChar_injOn (Nat.mod_lt _ (by norm_num)) (Nat.mod_lt _ (by norm_num)) h.2.2.1
  have h4 := digitChar_injOn (Nat.mod_lt _ (by norm_num)) (Nat.mod_lt _ (by norm_num)) h.2.2.2
  omega

theorem isoChars_length (d : Date) : d.isoChars.length = 10 := rfl

theorem isoChars_inj {d1 d2 : Date} (h1 : d1.Valid) (h2 : d2.Valid)
    (h : d1.isoChars = d2.isoChars) : d1 = d2 := by
  obtain ⟨⟨hy1, hy1'⟩, ⟨hm1, hm1'⟩, hd1, hd1'⟩ := h1
  obtain ⟨⟨hy2, hy2'⟩, ⟨hm2, hm2'⟩, hd2, hd2'⟩ := h2
  simp only [Date.isoChars, pad4Chars, pad2Chars, List.cons_append, List.nil_append,
    List.cons.injEq, and_true] at h
  obtain ⟨e1, e2, e3, e4, -, e5, e6, -, e7, e8⟩ := h
  have q1 := digitChar_injOn (Nat.mod_lt _ (by norm_num)) (Nat.mod_lt _ (by norm_num)) e1
  have q2 := digitChar_injOn (Nat.mod_lt _ (by norm_num)) (Nat.mod_lt _ (by norm_num)) e2
  have q3 := digitChar_injOn (Nat.mod_lt _ (by norm_num)) (Nat.mod_lt _ (by norm_num)) e3
  have q4 := digitChar_injOn (Nat.mod_lt _ (by norm_num)) (Nat.mod_lt _ (by norm_num)) e4
  have q5 := digitChar_injOn (Nat.mod_lt _ (by norm_num)) (Nat.mod_lt _ (by norm_num)) e5
  have q6 := digitChar_injOn (Nat.mod_lt _ (by norm_num)) (Nat.mod_lt _ (by norm_num)) e6
  have q7 := digitChar_injOn (Nat.mod_lt _ (by norm_num)) (Nat.mod_lt _ (by norm_num)) e7
  have q8 := digitChar_injOn (Nat.mod_lt _ (by norm_num)) (Nat.mod_lt _ (by norm_num)) e8
  obtain ⟨y1, m1, a1⟩ := d1
  obtain ⟨y2, m2, a2⟩ := d2
  simp only [Date.mk.injEq]
  refine ⟨?_, ?_, ?_⟩ <;> simp only at * <;> omega

theorem iso_inj {d1 d2 : Date} (h1 : d1.Valid) (h2 : d2.Valid)
    (h : d1.iso = d2.iso) : d1 = d2 :=
  isoChars_inj h1 h2 (congrArg String.data h)

theorem exitReason_value_inj {r1 r2 : ExitReason} (h : r1.value = r2.value) :
    r1 = r2 := by
  cases r1 <;> cases r2 <;> first | rfl | (exfalso; exact absurd h (by decide))

theorem exitReason_value_data_length (r : ExitReason) : r.value.data.length = 9 := by
  cases r <;> rfl

theorem exitReason_value_length (r : ExitReason) : r.value.length = 9 := by
  cases r <;> rfl

theorem generateEntryEventKey_inj {s1 s2 : String} {d1 d2 : Date}
    (h1 : d1.Valid) (h2 : d2.Valid)
    (h : generateEntryEventKey s1 d1 = generateEntryEventKey s2 d2) :
    s1 = s2 ∧ d1 = d2 := by
  have hdata : ('E' :: 'N' :: 'T' :: 'R' :: 'Y' :: '|' :: []) ++ s1.data ++
      ('|' :: []) ++ d1.isoChars =
      ('E' :: 'N' :: 'T' :: 'R' :: 'Y' :: '|' :: []) ++ s2.data ++
      ('|' :: []) ++ d2.isoChars := congrArg String.data h
  simp only [List.cons_append, List.nil_append, List.append_assoc,
    List.cons.injEq, true_and] at hdata
  have hlen : ('|' :: d1.isoChars).length = ('|' :: d2.isoChars).length := by
    simp [isoChars_length]
  obtain ⟨hs, htail⟩ := List.append_inj' hdata hlen
  refine ⟨string_data_inj hs, isoChars_inj h1 h2 ?_⟩
  exact (List.cons.injEq _ _ _ _ ▸ htail).2

theorem generateExitEventKey_inj {s1 s2 : String} {e1 e2 x1 x2 : Date}
    {r1 r2 : ExitReason}
    (he1 : e1.Valid) (he2 : e2.Valid) (hx1 : x1.Valid) (hx2 : x2.Valid)
    (h : generateExitEventKey s1 e1 x1 r1.value = generateExitEventKey s2 e2 x2 r2.value) :
    s1 = s2 ∧ e1 = e2 ∧ x1 = x2 ∧ r1 = r2 := by
  have hdata : ('E' :: 'X' :: 'I' :: 'T' :: '|' :: []) ++ s1.data ++
      ('|' :: []) ++ e1.isoChars ++ ('|' :: []) ++ x1.isoChars ++
      ('|' :: []) ++ r1.value.data =
      ('E' :: 'X' :: 'I' :: 'T' :: '|' :: []) ++ s2.data ++
      ('|' :: []) ++ e2.isoChars ++ ('|' :: []) ++ x2.isoChars ++
      ('|' :: []) ++ r2.value.data := congrArg String.data h
  simp only [List.cons_append, List.nil_append, List.append_assoc,
    List.cons.injEq, true_and] at hdata
  have hlen : ('|' :: (e1.isoChars ++ '|' :: (x1.isoChars ++ '|' :: r1.value.data))).length =
      ('|' :: (e2.isoChars ++ '|' :: (x2.isoChars ++ '|' :: r2.value.data))).length := by
    simp [isoChars_length, exitReason_value_data_length, exitReason_value_length]
  obtain ⟨hs, htail⟩ := List.append_inj' hdata hlen
  have htail2 := (List.cons.injEq _ _ _ _ ▸ htail).2
  obtain ⟨hiso1, htail3⟩ := List.append_inj htail2 (by simp [isoChars_length])
  have htail4 := (List.cons.injEq _ _ _ _ ▸ htail3).2
  obtain ⟨hiso2, htail5⟩ := List.append_inj htail4 (by simp [isoChars_length])
  have hr := (List.cons.injEq _ _ _ _ ▸ htail5).2
  exact ⟨string_data_inj hs, isoChars_inj he1 he2 hiso1, isoChars_inj hx1 hx2 hiso2,
    exitReason_value_inj (string_data_inj hr)⟩

/-! ### Claim theorems: pure signal logic and keys -/

/-- C2: for positive exact-decimal prices, the entry scan's signal condition
fires iff the earnings-day return `r = asOfClose / prevClose - 1` satisfies
`-0.30 ≤ r ≤ -0.05`, both bounds inclusive. -/
theorem entry_signal_iff_range (asOfClose prevClose : ℚ)
    (h1 : 0 < asOfClose) (h2 : 0 < prevClose) :
    entrySignal asOfClose prevClose = true ↔
      (-30 / 100 : ℚ) ≤ asOfClose / prevClose - 1 ∧
        asOfClose / prevClose - 1 ≤ -5 / 100 := by
  simp [entrySignal, earningsReturn, ENTRY_RETURN_MIN, ENTRY_RETURN_MAX]

/-- Witness for C2, checking the boundary behaviour: returns of exactly
-0.30 and -0.05 fire, returns of -0.31 and -0.04 do not. -/
theorem entry_signal_iff_range_witness :
    (0 < (70 : ℚ) ∧ 0 < (100 : ℚ) ∧ (70 : ℚ) / 100 - 1 = -30 / 100 ∧
      entrySignal 70 100 = true) ∧
    ((95 : ℚ) / 100 - 1 = -5 / 100 ∧ entrySignal 95 100 = true) ∧
    ((69 : ℚ) / 100 - 1 = -31 / 100 ∧ entrySignal 69 100 = false) ∧
    ((96 : ℚ) / 100 - 1 = -4 / 100 ∧ entrySignal 96 100 = false) := by
  refine ⟨⟨by norm_num, by norm_num, by norm_num, ?_⟩,
    ⟨by norm_num, ?_⟩, ⟨by norm_num, ?_⟩, ⟨by norm_num, ?_⟩⟩
  · exact (entry_signal_iff_range 70 100 (by norm_num) (by norm_num)).mpr
      (by norm_num)
  · exact (entry_signal_iff_range 95 100 (by norm_num) (by norm_num)).mpr
      (by norm_num)
  · have := (entry_signal_iff_range 69 100 (by norm_num) (by norm_num))
    rcases hb : entrySignal 69 100 with _ | _
    · rfl
    · exfalso
      have := this.mp hb
      norm_num at this
  · have := (entry_signal_iff_range 96 100 (by norm_num) (by norm_num))
    rcases hb : entrySignal 96 100 with _ | _
    · rfl
    · exfalso
      have := this.mp hb
      norm_num at this

/-- C3: exit evaluation — with `pnl = currentClose / entryPrice - 1` and
`holdingDays = asOfDate - entryDate` in calendar days, STOP_LOSS fires iff
`pnl ≤ -0.10`, TIME_EXIT fires iff `holdingDays ≥ 50` and `pnl > -0.10`,
at most one reason is produced, and STOP_LOSS has priority when both
conditions hold. -/
theorem evaluate_exit_spec (entryPrice currentClose : ℚ) (entryDate asOfDate : Date)
    (h : 0 < entryPrice) :
    (evaluateExit entryPrice currentClose entryDate asOfDate = some .STOP_LOSS ↔
        currentClose / entryPrice - 1 ≤ -10 / 100) ∧
    (evaluateExit entryPrice currentClose entryDate asOfDate = some .TIME_EXIT ↔
        50 ≤ dateDiffDays asOfDate entryDate ∧
          (-10 / 100 : ℚ) < currentClose / entryPrice - 1) ∧
    (∀ r1 r2 : ExitReason,
        evaluateExit entryPrice currentClose entryDate asOfDate = some r1 →
        evaluateExit entryPrice currentClose entryDate asOfDate = some r2 → r1 = r2) ∧
    (currentClose / entryPrice - 1 ≤ -10 / 100 →
        50 ≤ dateDiffDays asOfDate entryDate →
        evaluateExit entryPrice currentClose entryDate asOfDate = some .STOP_LOSS) := by
  unfold evaluateExit evalExitReason STOP_LOSS_THRESHOLD MAX_HOLDING_DAYS
  by_cases hsl : currentClose / entryPrice - 1 ≤ -10 / 100
  · rw [if_pos hsl]
    refine ⟨by simpa using hsl, ?_, ?_, fun _ _ => rfl⟩
    · constructor
      · intro he; exact absurd he (by simp)
      · rintro ⟨-, hgt⟩; exact absurd hsl (not_le.mpr hgt)
    · intro r1 r2 hr1 hr2
      rw [Option.some_inj] at hr1 hr2; rw [← hr1, ← hr2]
  · rw [if_neg hsl]
    push_neg at hsl
    by_cases hte : dateDiffDays asOfDate entryDate ≥ 50
    · rw [if_pos hte]
      refine ⟨?_, ?_, ?_, fun hle _ => absurd hle (not_le.mpr hsl)⟩
      · constructor
        · intro he; exact absurd he (by simp)
        · intro hle; exact absurd hle (not_le.mpr hsl)
      · exact ⟨fun _ => ⟨hte, hsl⟩, fun _ => rfl⟩
      · intro r1 r2 hr1 hr2
        rw [Option.some_inj] at hr1 hr2; rw [← hr1, ← hr2]
    · rw [if_neg hte]
      push_neg at hte
      refine ⟨by simp; linarith, ?_,
        by simp, fun hle _ => absurd hle (not_le.mpr hsl)⟩
      constructor
      · intro he; exact absurd he (by simp)
      · rintro ⟨h50, -⟩; exfalso; omega

/-- Witness for C3: the spec scenario — a position entered 2025-01-01 at
price 100, evaluated 2025-02-20 (holding 50 calendar days) at close 100
(pnl = 0) gets TIME_EXIT; one day earlier (49 days) it gets no exit. -/
theorem evaluate_exit_spec_witness :
    0 < (100 : ℚ) ∧
    dateDiffDays ⟨2025, 2, 20⟩ ⟨2025, 1, 1⟩ = 50 ∧
    evaluateExit 100 100 ⟨2025, 1, 1⟩ ⟨2025, 2, 20⟩ = some .TIME_EXIT ∧
    evaluateExit 100 100 ⟨2025, 1, 1⟩ ⟨2025, 2, 19⟩ = none := by
  have h50 : dateDiffDays ⟨2025, 2, 20⟩ ⟨2025, 1, 1⟩ = 50 := by decide
  have h49 : dateDiffDays ⟨2025, 2, 19⟩ ⟨2025, 1, 1⟩ = 49 := by decide
  refine ⟨by norm_num, h50, ?_, ?_⟩
  · exact (evaluate_exit_spec 100 100 ⟨2025, 1, 1⟩ ⟨2025, 2, 20⟩ (by norm_num)).2.1.mpr
      ⟨by rw [h50], by norm_num⟩
  · rw [evaluateExit, h49]
    norm_num [evalExitReason, STOP_LOSS_THRESHOLD, MAX_HOLDING_DAYS]

/-- C4: event keys are pure deterministic functions of their inputs with the
documented shapes, and (for valid dates and the engine's exit reasons) two
keys of the same kind are equal iff every field agrees — so inputs differing
in any one field give different keys. -/
theorem event_key_spec :
    (∀ s d, generateEntryEventKey s d = "ENTRY|" ++ s ++ "|" ++ d.iso) ∧
    (∀ s e x r, generateExitEventKey s e x r =
        "EXIT|" ++ s ++ "|" ++ e.iso ++ "|" ++ x.iso ++ "|" ++ r) ∧
    (∀ s1 s2 d1 d2, d1.Valid → d2.Valid →
        (generateEntryEventKey s1 d1 = generateEntryEventKey s2 d2 ↔
          s1 = s2 ∧ d1 = d2)) ∧
    (∀ s1 s2 e1 e2 x1 x2, ∀ r1 r2 : ExitReason,
        e1.Valid → e2.Valid → x1.Valid → x2.Valid →
        (generateExitEventKey s1 e1 x1 r1.value = generateExitEventKey s2 e2 x2 r2.value ↔
          s1 = s2 ∧ e1 = e2 ∧ x1 = x2 ∧ r1 = r2)) := by
  refine ⟨fun _ _ => rfl, fun _ _ _ _ => rfl, ?_, ?_⟩
  · intro s1 s2 d1 d2 h1 h2
    constructor
    · exact generateEntryEventKey_inj h1 h2
    · rintro ⟨rfl, rfl⟩; rfl
  · intro s1 s2 e1 e2 x1 x2 r1 r2 he1 he2 hx1 hx2
    constructor
    · exact generateExitEventKey_inj he1 he2 hx1 hx2
    · rintro ⟨rfl, rfl, rfl, rfl⟩; rfl

/-- Witness for C4: concrete identical inputs give byte-identical keys, and
changing a single field (the date, or the exit reason) changes the key. -/
theorem event_key_spec_witness :
    Date.Valid ⟨2025, 12, 1⟩ ∧ Date.Valid ⟨2025, 12, 2⟩ ∧
    generateEntryEventKey "AAPL" ⟨2025, 12, 1⟩ = "ENTRY|AAPL|2025-12-01" ∧
    generateEntryEventKey "AAPL" ⟨2025, 12, 1⟩ ≠ generateEntryEventKey "AAPL" ⟨2025, 12, 2⟩ ∧
    generateExitEventKey "AAPL" ⟨2025, 12, 1⟩ ⟨2025, 12, 20⟩ ExitReason.STOP_LOSS.value ≠
      generateExitEventKey "AAPL" ⟨2025, 12, 1⟩ ⟨2025, 12, 20⟩ ExitReason.TIME_EXIT.value := by
  refine ⟨by decide, by decide, by decide, fun h => ?_, fun h => ?_⟩
  · have := (event_key_spec.2.2.1 "AAPL" "AAPL" ⟨2025, 12, 1⟩ ⟨2025, 12, 2⟩
      (by decide) (by decide)).mp h
    simp at this
  · have := (event_key_spec.2.2.2 "AAPL" "AAPL" ⟨2025, 12, 1⟩ ⟨2025, 12, 1⟩
      ⟨2025, 12, 20⟩ ⟨2025, 12, 20⟩ ExitReason.STOP_LOSS ExitReason.TIME_EXIT
      (by decide) (by decide) (by decide) (by decide)).mp h
    simp at this

/-! ### FMP client retry policy (`fmp_client.py` lines 22-81) -/

/-- Transport-level outcome of one HTTP attempt. -/
inductive HttpOutcome where
  | timeout : HttpOutcome
  | response : ℕ → HttpOutcome
deriving DecidableEq, Repr

/-- The exception kinds the body of `_request` can raise: `FMPRateLimitError`
(a subclass of `FMPClientError`, not of the httpx errors),
`httpx.HTTPStatusError` from `raise_for_status`, and `httpx.TimeoutException`. -/
inductive RequestError where
  | rateLimit : RequestError
  | httpStatus : ℕ → RequestError
  | timeout : RequestError
deriving DecidableEq, Repr

/-- One un-retried execution of the body of `_request` (lines 65-81): a 429
status raises the rate-limit error before `raise_for_status` is reached;
`raise_for_status` raises `HTTPStatusError` for every non-2xx status. -/
def requestOnce (o : HttpOutcome) : Except RequestError Unit :=
  match o with
  | .timeout => .error .timeout
  | .response code =>
      if code = 429 then .error .rateLimit
      else if 200 ≤ code ∧ code ≤ 299 then .ok ()
      else .error (.httpStatus code)

/-- Embeds `retry_if_exception_type((httpx.HTTPStatusError, httpx.TimeoutException))`:
only those two exception types are retried. -/
def isRetryable : RequestError → Bool
  | .rateLimit => false
  | .httpStatus _ => true
  | .timeout => true

/-- tenacity's `wait_exponential(multiplier=1, min=2, max=10)` evaluated after
the given (1-based) failed attempt. -/
def waitExponential (attemptNumber : ℕ) : ℚ :=
  max (max 0 2) (min ((1 : ℚ) * 2 ^ attemptNumber) 10)

/-- Result of running `_request` under the `@retry` decorator: the final
outcome, how many attempts were made, and the sleeps performed between
attempts. -/
structure RetryResult where
  result : Except RequestError Unit
  attemptsMade : ℕ
  waits : List ℚ

/-- The `@retry` loop: run one attempt; on a retryable error with attempts
still allowed, sleep and try again; otherwise re-raise (`reraise=True`).
`remaining` is the number of further attempts `stop_after_attempt` allows. -/
def retryAux (outcomes : ℕ → HttpOutcome) :
    ℕ → ℕ → List ℚ → RetryResult
  | attemptNumber, remaining, waits =>
    match requestOnce (outcomes attemptNumber) with
    | .ok v => ⟨.ok v, attemptNumber, waits⟩
    | .error e =>
        match remaining with
        | 0 => ⟨.error e, attemptNumber, waits⟩
        | r + 1 =>
            if isRetryable e then
              retryAux outcomes (attemptNumber + 1) r
                (waits ++ [waitExponential attemptNumber])
            else ⟨.error e, attemptNumber, waits⟩

/-- Embeds `_request` with `stop_after_attempt(3)`: attempt 1 runs first, at most
two further attempts may follow. `outcomes n` is the transport outcome of
the n-th attempt. -/
def fmpRequest (outcomes : ℕ → HttpOutcome) : RetryResult :=
  retryAux outcomes 1 2 []

/-! ### Claim theorems: retry policy -/

/-- Counterexample for C5 as stated: a plain 404 response — a non-transient
client error that is not a rate limit — IS retried: all 3 attempts are
consumed before the `HTTPStatusError` is re-raised, because
`raise_for_status` raises `httpx.HTTPStatusError` for every non-2xx status
and that exact type is in the `retry_if_exception_type` list. -/
theorem client_error_404_is_retried :
    fmpRequest (fun _ => .response 404) =
      ⟨.error (.httpStatus 404), 3, [waitExponential 1, waitExponential 2]⟩ ∧
    (fmpRequest (fun _ => .response 404)).attemptsMade ≠ 1 := by
  have h : fmpRequest (fun _ => .response 404) =
      ⟨.error (.httpStatus 404), 3, [waitExponential 1, waitExponential 2]⟩ := by
    simp [fmpRequest, retryAux, requestOnce, isRetryable]
  exact ⟨h, by rw [h]; decide⟩

/-- C5 (amended): timeouts and non-2xx statuses other than 429 are retried up
to 3 attempts with exponential-backoff sleeps all within [2s, 10s]; a 429
response raises the distinct rate-limit error kind after a single attempt and
is never retried; but non-transient client errors (4xx other than 429) are
retried exactly like transient errors, since `raise_for_status` maps them to
the retried `httpx.HTTPStatusError` type. -/
theorem retry_policy_spec (outcomes : ℕ → HttpOutcome) :
    (outcomes 1 = .response 429 →
      fmpRequest outcomes = ⟨.error .rateLimit, 1, []⟩) ∧
    ((∀ n, outcomes n = .timeout) →
      fmpRequest outcomes =
        ⟨.error .timeout, 3, [waitExponential 1, waitExponential 2]⟩) ∧
    (∀ code, ¬(200 ≤ code ∧ code ≤ 299) → code ≠ 429 →
      (∀ n, outcomes n = .response code) →
      fmpRequest outcomes =
        ⟨.error (.httpStatus code), 3, [waitExponential 1, waitExponential 2]⟩) ∧
    (∀ n, (2 : ℚ) ≤ waitExponential n ∧ waitExponential n ≤ 10) := by
  refine ⟨?_, ?_, ?_, ?_⟩
  · intro h
    simp [fmpRequest, retryAux, requestOnce, h, isRetryable]
  · intro h
    simp [fmpRequest, retryAux, requestOnce, h, isRetryable]
  · intro code hc h429 h
    simp only [fmpRequest, retryAux, requestOnce, h, if_neg h429, if_neg hc,
      isRetryable, List.nil_append]
    simp [retryAux, requestOnce, h, if_neg h429, if_neg hc, isRetryable]
  · intro n
    unfold waitExponential
    constructor
    · exact le_trans (by norm_num : (2 : ℚ) ≤ max 0 2) (le_max_left _ _)
    · exact max_le (by norm_num) (min_le_right _ _)

/-- Witness for C5 (amended): with every attempt timing out, the request is
retried to exactly 3 attempts with sleeps of 2s and 4s; with a first-attempt
429 it fails once, immediately, with the rate-limit kind. -/
theorem retry_policy_spec_witness :
    fmpRequest (fun _ => .timeout) = ⟨.error .timeout, 3, [2, 4]⟩ ∧
    fmpRequest (fun _ => .response 429) = ⟨.error .rateLimit, 1, []⟩ := by
  have hw1 : waitExponential 1 = 2 := by unfold waitExponential; norm_num
  have hw2 : waitExponential 2 = 4 := by unfold waitExponential; norm_num
  constructor
  · rw [(retry_policy_spec (fun _ => .timeout)).2.1 (fun _ => rfl), hw1, hw2]
  · exact (retry_policy_spec (fun _ => .response 429)).1 rfl

/-! ### Historical price lookup (`fmp_client.py` lines 118-199) -/

/-- One record of the FMP historical-price response, keeping only the fields
the lookup reads; a missing JSON key is `none`. -/
structure PriceRecord where
  date : Option String
  close : Option ℚ
deriving DecidableEq, Repr

/-- Embeds `get_historical_prices(symbol, timeseries=20)`: the upstream list
(sorted newest first) truncated to the newest 20 records. -/
def getHistoricalPrices (data : List PriceRecord) : List PriceRecord :=
  data.take 20

/-- The `for i, item in enumerate(historical)` search for `as_of` with
`break` on the first match. -/
def findDateIdx (asOfStr : String) : List PriceRecord → Option ℕ
  | [] => none
  | item :: rest =>
      if item.date == some asOfStr then some 0
      else (findDateIdx asOfStr rest).map (· + 1)

/-- Embeds `get_price_data_for_date(symbol, as_of)`: find `as_of` in the lookback
window; the previous trading day is the next item in the newest-first list;
absent if the window is empty, the date is not found, there is no next item,
or either close is missing. -/
def getPriceDataForDate (data : List PriceRecord) (asOf : Date) :
    Option (ℚ × ℚ) :=
  let historical := getHistoricalPrices data
  if historical.isEmpty then none
  else
    match findDateIdx asOf.iso historical with
    | none => none
    | some i =>
        if i + 1 ≥ historical.length then none
        else
          match (historical[i]?).bind PriceRecord.close,
              (historical[i+1]?).bind PriceRecord.close with
          | some c1, some c2 => some (c1, c2)
          | some _, none => none
          | none, _ => none

/-- Embeds `get_close_price(symbol, as_of)`: close of the first record matching the
date (the loop `break`s after the first match even if its close is missing). -/
def getClosePrice (data : List PriceRecord) (asOf : Date) : Option ℚ :=
  let historical := getHistoricalPrices data
  if historical.isEmpty then none
  else
    match historical.find? (fun item => item.date == some asOf.iso) with
    | none => none
    | some item => item.close

theorem findDateIdx_none {s : String} {l : List PriceRecord}
    (h : ∀ rec ∈ l, rec.date ≠ some s) : findDateIdx s l = none := by
  induction l with
  | nil => rfl
  | cons a rest ih =>
      have ha : (a.date == some s) = false := by
        rw [beq_eq_false_iff_ne]
        exact h a (List.mem_cons_self a rest)
      simp [findDateIdx, ha, ih (fun rec hr => h rec (List.mem_cons_of_mem a hr))]

theorem findDateIdx_some {s : String} {l : List PriceRecord} {i : ℕ}
    (h : findDateIdx s l = some i) :
    ∃ rec, l[i]? = some rec ∧ rec.date = some s := by
  induction l generalizing i with
  | nil => simp [findDateIdx] at h
  | cons a rest ih =>
      rw [findDateIdx] at h
      by_cases ha : (a.date == some s) = true
      · rw [if_pos ha] at h
        obtain rfl : (0 : ℕ) = i := Option.some_inj.mp h
        exact ⟨a, by simp, by rwa [beq_iff_eq] at ha⟩
      · rw [if_neg ha] at h
        rw [Option.map_eq_some'] at h
        obtain ⟨j, hj, rfl⟩ := h
        obtain ⟨rec, hrec, hdate⟩ := ih hj
        exact ⟨rec, by simpa using hrec, hdate⟩

/-! ### Claim theorems: price lookup -/

/-- C9: the lookback window has at most 20 records; the lookup is absent when
the requested date matches no record of the window, and when the matching
record has no record after it in the newest-first list; and a returned value
is exactly (close of the first matching record, close of the immediately
following record). -/
theorem price_data_for_date_spec (data : List PriceRecord) (asOf : Date) :
    (getHistoricalPrices data).length ≤ 20 ∧
    ((∀ rec ∈ getHistoricalPrices data, rec.date ≠ some asOf.iso) →
      getPriceDataForDate data asOf = none) ∧
    (∀ i, findDateIdx asOf.iso (getHistoricalPrices data) = some i →
      i + 1 ≥ (getHistoricalPrices data).length →
      getPriceDataForDate data asOf = none) ∧
    (∀ c1 c2, getPriceDataForDate data asOf = some (c1, c2) →
      ∃ i rec1 rec2,
        findDateIdx asOf.iso (getHistoricalPrices data) = some i ∧
        (getHistoricalPrices data)[i]? = some rec1 ∧
        rec1.date = some asOf.iso ∧
        (getHistoricalPrices data)[i + 1]? = some rec2 ∧
        rec1.close = some c1 ∧ rec2.close = some c2) := by
  refine ⟨by simpa [getHistoricalPrices] using List.length_take_le 20 data, ?_, ?_, ?_⟩
  · intro h
    rw [getPriceDataForDate]
    simp only [findDateIdx_none h]
    split <;> rfl
  · intro i hfind hlen
    rw [getPriceDataForDate]
    simp only [hfind, ge_iff_le, hlen, if_true]
    split <;> rfl
  · intro c1 c2 h
    rw [getPriceDataForDate] at h
    split at h
    · exact absurd h (by simp)
    · revert h
      split
      · intro h; exact absurd h (by simp)
      · rename_i i hfind
        intro h
        split at h
        · exact absurd h (by simp)
        · split at h
          · rename_i c1' c2' h1 h2
            rw [Option.some_inj, Prod.mk.injEq] at h
            obtain ⟨rfl, rfl⟩ := h
            obtain ⟨rec1, hrec1, hd1⟩ := findDateIdx_some hfind
            rw [Option.bind_eq_some] at h1 h2
            obtain ⟨r1, hr1, hc1⟩ := h1
            obtain ⟨r2, hr2, hc2⟩ := h2
            rw [hrec1] at hr1
            obtain rfl : r1 = rec1 := (Option.some_inj.mp hr1).symm
            exact ⟨i, r1, r2, hfind, hrec1, hd1, hr2, hc1, hc2⟩
          · exact absurd h (by simp)
          · exact absurd h (by simp)

/-- The three-record window of the repository's own client tests. -/
def mockHistorical : List PriceRecord :=
  [⟨some "2025-01-15", some 150⟩, ⟨some "2025-01-14", some 148⟩,
   ⟨some "2025-01-13", some 147⟩]

/-- Witness for C9, on the test fixture: a missing date (2025-01-18) is
absent, the newest present date resolves to (its close, next record's close),
and the oldest record (no prior trading day in the window) is absent. -/
theorem price_data_for_date_spec_witness :
    getPriceDataForDate mockHistorical ⟨2025, 1, 18⟩ = none ∧
    getPriceDataForDate mockHistorical ⟨2025, 1, 15⟩ = some (150, 148) ∧
    getPriceDataForDate mockHistorical ⟨2025, 1, 13⟩ = none := by
  refine ⟨?_, by rfl, ?_⟩
  · exact (price_data_for_date_spec mockHistorical ⟨2025, 1, 18⟩).2.1 (by decide)
  · exact (price_data_for_date_spec mockHistorical ⟨2025, 1, 13⟩).2.2.1 2
      (by rfl) (by decide)

/-! ### Database rows (`app/db/models.py`) and engine state -/

/-- A row of `positions` (timestamps managed by the server omitted; `status`
and `exit_reason` hold the enum `.value` strings, as in the code). -/
structure PositionRow where
  id : ℕ
  symbol : String
  entry_date : Date
  entry_price : ℚ
  status : String
  exit_date : Option Date
  exit_price : Option ℚ
  exit_reason : Option String
deriving DecidableEq, Repr

/-- A row of `alerts`. -/
structure AlertRow where
  id : ℕ
  event_key : String
  alert_type : String
  symbol : String
  as_of : Date
  message : String
  created_at : ℤ
  sent_at : Option ℤ
deriving DecidableEq, Repr

/-- A row of `symbols_cache`. -/
structure CacheEntry where
  symbol : String
  updated_at : ℤ
deriving DecidableEq, Repr

/-- The durable store. `nextPositionId` / `nextAlertId` stand in for the
fresh-UUID generator for primary keys. -/
structure DBState where
  positions : List PositionRow
  alerts : List AlertRow
  cache : List CacheEntry
  nextPositionId : ℕ
  nextAlertId : ℕ
deriving DecidableEq, Repr

/-- The market-data interface the engine consumes (`FMPClient`). The price
calls sit inside the per-symbol `try` blocks, so they are modelled as
fallible; `.error` is an exception reaching the `except` handler. -/
structure MarketData where
  sp500 : List String
  earnings : Date → List String
  priceData : String → Date → Except Unit (Option (ℚ × ℚ))
  closePrice : String → Date → Except Unit (Option ℚ)

/-! ### Symbol-universe cache (`strategy_engine.py` lines 30-74) -/

/-- Embeds `min(c.updated_at for c in cached)` over a non-empty cache. -/
def minUpdatedAt (c : CacheEntry) (cs : List CacheEntry) : ℤ :=
  cs.foldl (fun m e => min m e.updated_at) c.updated_at

/-- Embeds `get_sp500_symbols`, acting on the cache table: return the cached symbols
if the cache is non-empty and its oldest entry is younger than the TTL;
otherwise fetch — a non-empty fetch replaces the whole cache (delete all,
insert all with `updated_at = now`), an empty fetch falls back to the stale
cache when one exists. -/
def getUniverse (md : MarketData) (now ttl : ℤ) (cache : List CacheEntry) :
    List String × List CacheEntry :=
  let fresh : Bool :=
    match cache with
    | [] => false
    | c :: cs => decide (now - minUpdatedAt c cs < ttl)
  if fresh then (cache.map CacheEntry.symbol, cache)
  else
    let symbols := md.sp500
    if symbols.isEmpty then
      if cache.isEmpty then ([], cache)
      else (cache.map CacheEntry.symbol, cache)
    else (symbols, symbols.map (fun s => ⟨s, now⟩))

/-- Embeds `get_sp500_symbols` on the full state (it only reads and writes the
cache table). -/
def getSp500Symbols (md : MarketData) (now ttl : ℤ) (st : DBState) :
    List String × DBState :=
  ((getUniverse md now ttl st.cache).1,
    { st with cache := (getUniverse md now ttl st.cache).2 })

/-! ### Conditional inserts (`ON CONFLICT DO NOTHING`) -/

/-- Position insert with `on_conflict_do_nothing(index_elements=["symbol",
"entry_date"])` (lines 168-177): a new row starts OPEN with exit fields
unset. -/
def insertPositionIfAbsent (st : DBState) (symbol : String) (entryDate : Date)
    (entryPrice : ℚ) : DBState :=
  if st.positions.any (fun p => p.symbol == symbol && p.entry_date == entryDate)
  then st
  else
    { st with
      positions := st.positions ++
        [⟨st.nextPositionId, symbol, entryDate, entryPrice,
          PositionStatus.OPEN.value, none, none, none⟩],
      nextPositionId := st.nextPositionId + 1 }

/-- Alert insert with `on_conflict_do_nothing(index_elements=["event_key"])`
(lines 185-193); the returned Bool is `result.rowcount > 0`. -/
def insertAlertIfAbsent (st : DBState) (eventKey alertType symbol : String)
    (asOf : Date) (message : String) (now : ℤ) : DBState × Bool :=
  if st.alerts.any (fun a => a.event_key == eventKey) then (st, false)
  else
    ({ st with
       alerts := st.alerts ++
         [⟨st.nextAlertId, eventKey, alertType, symbol, asOf, message, now, none⟩],
       nextAlertId := st.nextAlertId + 1 }, true)

/-! ### Entry scan (`scan_entries`, lines 114-204) -/

/-- One iteration of the `for symbol in candidates` loop. An `.error` from
the price call is an exception caught by the per-symbol `except` handler:
the symbol is skipped and the accumulator is unchanged. -/
def entryStep (md : MarketData) (now : ℤ) (asOf : Date)
    (acc : DBState × ℕ) (symbol : String) : DBState × ℕ :=
  match md.priceData symbol asOf with
  | .error _ => acc
  | .ok none => acc
  | .ok (some (asOfClose, prevClose)) =>
      if entrySignal asOfClose prevClose then
        let st1 := insertPositionIfAbsent acc.1 symbol asOf asOfClose
        let eventKey := generateEntryEventKey symbol asOf
        let message := formatEntryMessage symbol asOf
          (earningsReturn asOfClose prevClose) asOfClose
        let r := insertAlertIfAbsent st1 eventKey
          AlertType.ENTRY.value symbol asOf message now
        (r.1, if r.2 then acc.2 + 1 else acc.2)
      else acc

/-- Embeds `scan_entries(as_of)`: resolve the universe, abort with 0 if empty,
filter the earnings calendar to universe members, then run the per-symbol
loop. Returns the new state and the count of newly inserted alerts. -/
def scanEntries (md : MarketData) (now ttl : ℤ) (asOf : Date) (st : DBState) :
    DBState × ℕ :=
  let u := getSp500Symbols md now ttl st
  if u.1.isEmpty then (u.2, 0)
  else
    let candidates := (md.earnings asOf).filter (fun s => u.1.contains s)
    candidates.foldl (entryStep md now asOf) (u.2, 0)

/-! ### Exit scan (`scan_exits`, lines 206-301) -/

/-- The row transformation of `UPDATE positions SET status = CLOSED,
exit_date, exit_price, exit_reason WHERE id = position.id` (lines 258-267). -/
def closeRow (pid : ℕ) (exitDate : Date) (exitPrice : ℚ) (exitReason : String)
    (p : PositionRow) : PositionRow :=
  if p.id == pid then
    { p with
      status := PositionStatus.CLOSED.value,
      exit_date := some exitDate,
      exit_price := some exitPrice,
      exit_reason := some exitReason }
  else p

/-- One iteration of the `for position in open_positions` loop; `.error`
from the price call is caught by the per-position `except` handler. -/
def exitStep (md : MarketData) (now : ℤ) (asOf : Date)
    (acc : DBState × ℕ) (position : PositionRow) : DBState × ℕ :=
  match md.closePrice position.symbol asOf with
  | .error _ => acc
  | .ok none => acc
  | .ok (some closePrice) =>
      let holdingDays := dateDiffDays asOf position.entry_date
      let pnl := closePrice / position.entry_price - 1
      match evalExitReason pnl holdingDays with
      | none => acc
      | some reason =>
          let st1 := { acc.1 with
            positions := acc.1.positions.map
              (closeRow position.id asOf closePrice reason.value) }
          let eventKey := generateExitEventKey position.symbol
            position.entry_date asOf reason.value
          let message := formatExitMessage position.symbol asOf reason.value
            pnl closePrice holdingDays
          let r := insertAlertIfAbsent st1 eventKey
            AlertType.EXIT.value position.symbol asOf message now
          (r.1, if r.2 then acc.2 + 1 else acc.2)

/-- The snapshot `SELECT * FROM positions WHERE status = OPEN` read once
before the loop (lines 220-223). -/
def openPositions (st : DBState) : List PositionRow :=
  st.positions.filter (fun p => p.status == PositionStatus.OPEN.value)

/-- Embeds `scan_exits(as_of)`. -/
def scanExits (md : MarketData) (now : ℤ) (asOf : Date) (st : DBState) :
    DBState × ℕ :=
  (openPositions st).foldl (exitStep md now asOf) (st, 0)

/-- Embeds `run_daily_job(as_of)`: entry scan, then exit scan, both for the same
date; returns (state, new entry alerts, new exit alerts). -/
def runDailyJob (md : MarketData) (now ttl : ℤ) (asOf : Date) (st : DBState) :
    DBState × ℕ × ℕ :=
  let e := scanEntries md now ttl asOf st
  let x := scanExits md now asOf e.1
  (x.1, e.2, x.2)

/-! ### Alert acknowledgment (`routes.py` lines 90-127) -/

/-- Embeds `POST /alerts/{alert_id}/mark-sent`: 404 (`.error ()`) when no alert has
that id; success with the existing `sent_at` and no write when already sent;
otherwise set `sent_at = now` and report it. -/
def markAlertSent (st : DBState) (alertId : ℕ) (now : ℤ) :
    Except Unit (ℤ × DBState) :=
  match st.alerts.find? (fun a => a.id == alertId) with
  | none => .error ()
  | some alert =>
      match alert.sent_at with
      | some t => .ok (t, st)
      | none =>
          .ok (now,
            { st with
              alerts := st.alerts.map (fun a =>
                if a.id == alertId then { a with sent_at := some now } else a) })

/-! ### Invariant toolkit for the scan state machine -/

/-- An alert row with this event key exists (the dedup gate). -/
def alertKeyPresent (st : DBState) (k : String) : Prop :=
  ∃ a ∈ st.alerts, a.event_key = k

/-- A position row for this (symbol, entry_date) exists, whatever its
status (the unique-constraint key). -/
def positionPresent (st : DBState) (symbol : String) (d : Date) : Prop :=
  ∃ p ∈ st.positions, p.symbol = symbol ∧ p.entry_date = d

theorem anyEventKey_iff (st : DBState) (k : String) :
    (st.alerts.any (fun a => a.event_key == k)) = true ↔ alertKeyPresent st k := by
  simp [alertKeyPresent, List.any_eq_true]

theorem anyPosition_iff (st : DBState) (symbol : String) (d : Date) :
    (st.positions.any (fun p => p.symbol == symbol && p.entry_date == d)) = true ↔
      positionPresent st symbol d := by
  simp [positionPresent, List.any_eq_true]

theorem foldl_congr_id {α β : Type} (f : β → α → β) (l : List α) (acc : β)
    (h : ∀ a ∈ l, f acc a = acc) : l.foldl f acc = acc := by
  induction l with
  | nil => rfl
  | cons a rest ih =>
      rw [List.foldl_cons, h a (List.mem_cons_self a rest)]
      exact ih (fun x hx => h x (List.mem_cons_of_mem a hx))

theorem insertPositionIfAbsent_cache (st : DBState) (symbol : String)
    (d : Date) (price : ℚ) :
    (insertPositionIfAbsent st symbol d price).cache = st.cache := by
  unfold insertPositionIfAbsent; split <;> rfl

theorem insertPositionIfAbsent_alerts (st : DBState) (symbol : String)
    (d : Date) (price : ℚ) :
    (insertPositionIfAbsent st symbol d price).alerts = st.alerts := by
  unfold insertPositionIfAbsent; split <;> rfl

theorem insertPositionIfAbsent_present_after (st : DBState) (symbol : String)
    (d : Date) (price : ℚ) :
    positionPresent (insertPositionIfAbsent st symbol d price) symbol d := by
  unfold insertPositionIfAbsent
  split
  · next h => exact (anyPosition_iff st symbol d).mp h
  · exact ⟨⟨st.nextPositionId, symbol, d, price, PositionStatus.OPEN.value,
      none, none, none⟩, by simp, rfl, rfl⟩

theorem insertPositionIfAbsent_mono (st : DBState) (symbol : String) (d : Date)
    (price : ℚ) {sym' : String} {d' : Date}
    (h : positionPresent st sym' d') :
    positionPresent (insertPositionIfAbsent st symbol d price) sym' d' := by
  obtain ⟨p, hp, hsym, hdate⟩ := h
  unfold insertPositionIfAbsent
  split
  · exact ⟨p, hp, hsym, hdate⟩
  · exact ⟨p, by simp [List.mem_append]; exact Or.inl hp, hsym, hdate⟩

theorem insertPositionIfAbsent_of_present (st : DBState) (symbol : String)
    (d : Date) (price : ℚ) (h : positionPresent st symbol d) :
    insertPositionIfAbsent st symbol d price = st := by
  unfold insertPositionIfAbsent
  rw [if_pos ((anyPosition_iff st symbol d).mpr h)]

theorem insertAlertIfAbsent_cache (st : DBState) (k t s : String) (d : Date)
    (m : String) (now : ℤ) :
    (insertAlertIfAbsent st k t s d m now).1.cache = st.cache := by
  unfold insertAlertIfAbsent; split <;> rfl

theorem insertAlertIfAbsent_positions (st : DBState) (k t s : String) (d : Date)
    (m : String) (now : ℤ) :
    (insertAlertIfAbsent st k t s d m now).1.positions = st.positions := by
  unfold insertAlertIfAbsent; split <;> rfl

theorem insertAlertIfAbsent_present_after (st : DBState) (k t s : String)
    (d : Date) (m : String) (now : ℤ) :
    alertKeyPresent (insertAlertIfAbsent st k t s d m now).1 k := by
  unfold insertAlertIfAbsent
  split
  · next h => exact (anyEventKey_iff st k).mp h
  · exact ⟨⟨st.nextAlertId, k, t, s, d, m, now, none⟩, by simp, rfl⟩

theorem insertAlertIfAbsent_mono (st : DBState) (k t s : String) (d : Date)
    (m : String) (now : ℤ) {k' : String} (h : alertKeyPresent st k') :
    alertKeyPresent (insertAlertIfAbsent st k t s d m now).1 k' := by
  obtain ⟨a, ha, hk⟩ := h
  unfold insertAlertIfAbsent
  split
  · exact ⟨a, ha, hk⟩
  · exact ⟨a, by simp [List.mem_append]; exact Or.inl ha, hk⟩

theorem insertAlertIfAbsent_of_present (st : DBState) (k t s : String)
    (d : Date) (m : String) (now : ℤ) (h : alertKeyPresent st k) :
    insertAlertIfAbsent st k t s d m now = (st, false) := by
  unfold insertAlertIfAbsent
  rw [if_pos ((anyEventKey_iff st k).mpr h)]

theorem closeRow_id (pid : ℕ) (d : Date) (c : ℚ) (rs : String) (p : PositionRow) :
    (closeRow pid d c rs p).id = p.id := by
  unfold closeRow; split <;> rfl

theorem closeRow_symbol (pid : ℕ) (d : Date) (c : ℚ) (rs : String) (p : PositionRow) :
    (closeRow pid d c rs p).symbol = p.symbol := by
  unfold closeRow; split <;> rfl

theorem closeRow_entry_date (pid : ℕ) (d : Date) (c : ℚ) (rs : String) (p : PositionRow) :
    (closeRow pid d c rs p).entry_date = p.entry_date := by
  unfold closeRow; split <;> rfl

theorem closeRow_entry_price (pid : ℕ) (d : Date) (c : ℚ) (rs : String) (p : PositionRow) :
    (closeRow pid d c rs p).entry_price = p.entry_price := by
  unfold closeRow; split <;> rfl

theorem closeRow_of_open (pid : ℕ) (d : Date) (c : ℚ) (rs : String) (p : PositionRow)
    (h : (closeRow pid d c rs p).status = PositionStatus.OPEN.value) :
    closeRow pid d c rs p = p := by
  unfold closeRow at h ⊢
  split at h
  · exact absurd h (by simp [PositionStatus.value])
  · next hne => rw [if_neg hne]

theorem closeRow_keeps_closed (pid : ℕ) (d : Date) (c : ℚ) (rs : String)
    (p : PositionRow) (h : p.status = PositionStatus.CLOSED.value) :
    (closeRow pid d c rs p).status = PositionStatus.CLOSED.value := by
  unfold closeRow
  split
  · rfl
  · exact h

theorem closeRow_closes (pid : ℕ) (d : Date) (c : ℚ) (rs : String)
    (p : PositionRow) (h : p.id = pid) :
    (closeRow pid d c rs p).status = PositionStatus.CLOSED.value := by
  unfold closeRow
  rw [if_pos (by simp [h])]

theorem positionPresent_insertAlert (st : DBState) (k t s : String) (d : Date)
    (m : String) (now : ℤ) (sym' : String) (d' : Date) :
    positionPresent (insertAlertIfAbsent st k t s d m now).1 sym' d' ↔
      positionPresent st sym' d' := by
  unfold positionPresent
  rw [insertAlertIfAbsent_positions]

theorem alertKeyPresent_insertPosition (st : DBState) (symbol : String)
    (d : Date) (price : ℚ) (k' : String) :
    alertKeyPresent (insertPositionIfAbsent st symbol d price) k' ↔
      alertKeyPresent st k' := by
  unfold alertKeyPresent
  rw [insertPositionIfAbsent_alerts]

/-! ### Entry-step lemmas -/

/-- The entry condition actually fires for this symbol on this date: the
price call succeeds with a pair and the signal band check passes. -/
def entryFires (md : MarketData) (asOf : Date) (s : String) : Prop :=
  ∃ c p, md.priceData s asOf = .ok (some (c, p)) ∧ entrySignal c p = true

/-- Case shape of one entry iteration: either it leaves the accumulator
unchanged (error, missing price, or no signal), or the signal fires and it
performs the two conditional inserts. -/
theorem entryStep_eq (md : MarketData) (now : ℤ) (asOf : Date)
    (acc : DBState × ℕ) (s : String) :
    entryStep md now asOf acc s = acc ∨
    ∃ c p, md.priceData s asOf = .ok (some (c, p)) ∧ entrySignal c p = true ∧
      entryStep md now asOf acc s =
        ((insertAlertIfAbsent (insertPositionIfAbsent acc.1 s asOf c)
            (generateEntryEventKey s asOf) AlertType.ENTRY.value s asOf
            (formatEntryMessage s asOf (earningsReturn c p) c) now).1,
          if (insertAlertIfAbsent (insertPositionIfAbsent acc.1 s asOf c)
              (generateEntryEventKey s asOf) AlertType.ENTRY.value s asOf
              (formatEntryMessage s asOf (earningsReturn c p) c) now).2
          then acc.2 + 1 else acc.2) := by
  unfold entryStep
  split
  · exact Or.inl rfl
  · exact Or.inl rfl
  · rename_i asOfClose prevClose heq
    by_cases hs : entrySignal asOfClose prevClose = true
    · rw [if_pos hs]
      exact Or.inr ⟨asOfClose, prevClose, heq, hs, rfl⟩
    · rw [if_neg hs]
      exact Or.inl rfl

theorem entryStep_cache (md : MarketData) (now : ℤ) (asOf : Date)
    (acc : DBState × ℕ) (s : String) :
    (entryStep md now asOf acc s).1.cache = acc.1.cache := by
  rcases entryStep_eq md now asOf acc s with h | ⟨c, p, -, -, h⟩ <;> rw [h]
  rw [insertAlertIfAbsent_cache, insertPositionIfAbsent_cache]

theorem entryStep_mono_alert (md : MarketData) (now : ℤ) (asOf : Date)
    (acc : DBState × ℕ) (s : String) {k : String}
    (h : alertKeyPresent acc.1 k) :
    alertKeyPresent (entryStep md now asOf acc s).1 k := by
  rcases entryStep_eq md now asOf acc s with he | ⟨c, p, -, -, he⟩ <;> rw [he]
  · exact h
  · exact insertAlertIfAbsent_mono _ _ _ _ _ _ _
      ((alertKeyPresent_insertPosition _ _ _ _ _).mpr h)

theorem entryStep_mono_pos (md : MarketData) (now : ℤ) (asOf : Date)
    (acc : DBState × ℕ) (s : String) {sym' : String} {d' : Date}
    (h : positionPresent acc.1 sym' d') :
    positionPresent (entryStep md now asOf acc s).1 sym' d' := by
  rcases entryStep_eq md now asOf acc s with he | ⟨c, p, -, -, he⟩ <;> rw [he]
  · exact h
  · exact (positionPresent_insertAlert _ _ _ _ _ _ _ _ _).mpr
      (insertPositionIfAbsent_mono _ _ _ _ h)

theorem entryStep_establishes (md : MarketData) (now : ℤ) (asOf : Date)
    (acc : DBState × ℕ) (s : String) (h : entryFires md asOf s) :
    alertKeyPresent (entryStep md now asOf acc s).1 (generateEntryEventKey s asOf) ∧
      positionPresent (entryStep md now asOf acc s).1 s asOf := by
  obtain ⟨c, p, hp, hs⟩ := h
  unfold entryStep
  rw [hp]
  simp only [hs, if_true]
  exact ⟨insertAlertIfAbsent_present_after _ _ _ _ _ _ _,
    (positionPresent_insertAlert _ _ _ _ _ _ _ _ _).mpr
      (insertPositionIfAbsent_present_after _ _ _ _)⟩

theorem entryStep_noop (md : MarketData) (now : ℤ) (asOf : Date)
    (acc : DBState × ℕ) (s : String)
    (h : entryFires md asOf s →
      alertKeyPresent acc.1 (generateEntryEventKey s asOf) ∧
        positionPresent acc.1 s asOf) :
    entryStep md now asOf acc s = acc := by
  rcases entryStep_eq md now asOf acc s with he | ⟨c, p, hp, hs, he⟩
  · exact he
  · obtain ⟨hk, hpos⟩ := h ⟨c, p, hp, hs⟩
    rw [he, insertPositionIfAbsent_of_present _ _ _ _ hpos,
      insertAlertIfAbsent_of_present _ _ _ _ _ _ _ hk]
    simp

/-! ### Entry-fold lemmas -/

theorem entryFold_cache (md : MarketData) (now : ℤ) (asOf : Date)
    (l : List String) :
    ∀ acc : DBState × ℕ,
      (l.foldl (entryStep md now asOf) acc).1.cache = acc.1.cache := by
  induction l with
  | nil => intro acc; rfl
  | cons s rest ih =>
      intro acc
      rw [List.foldl_cons, ih (entryStep md now asOf acc s), entryStep_cache]

theorem entryFold_mono_alert (md : MarketData) (now : ℤ) (asOf : Date)
    (l : List String) {k : String} :
    ∀ acc : DBState × ℕ, alertKeyPresent acc.1 k →
      alertKeyPresent ((l.foldl (entryStep md now asOf) acc)).1 k := by
  induction l with
  | nil => intro acc h; exact h
  | cons s rest ih =>
      intro acc h
      exact ih _ (entryStep_mono_alert md now asOf acc s h)

theorem entryFold_mono_pos (md : MarketData) (now : ℤ) (asOf : Date)
    (l : List String) {sym' : String} {d' : Date} :
    ∀ acc : DBState × ℕ, positionPresent acc.1 sym' d' →
      positionPresent ((l.foldl (entryStep md now asOf) acc)).1 sym' d' := by
  induction l with
  | nil => intro acc h; exact h
  | cons s rest ih =>
      intro acc h
      exact ih _ (entryStep_mono_pos md now asOf acc s h)

theorem entryFold_establishes (md : MarketData) (now : ℤ) (asOf : Date)
    (l : List String) :
    ∀ acc : DBState × ℕ, ∀ s ∈ l, entryFires md asOf s →
      alertKeyPresent ((l.foldl (entryStep md now asOf) acc)).1
          (generateEntryEventKey s asOf) ∧
        positionPresent ((l.foldl (entryStep md now asOf) acc)).1 s asOf := by
  induction l with
  | nil => intro acc s hs; exact absurd hs (List.not_mem_nil s)
  | cons s0 rest ih =>
      intro acc s hs hf
      rw [List.foldl_cons]
      rcases List.mem_cons.mp hs with rfl | hmem
      · obtain ⟨hk, hpos⟩ := entryStep_establishes md now asOf acc s hf
        exact ⟨entryFold_mono_alert md now asOf rest _ hk,
          entryFold_mono_pos md now asOf rest _ hpos⟩
      · exact ih _ s hmem hf

theorem entryFold_noop (md : MarketData) (now : ℤ) (asOf : Date)
    (l : List String) (acc : DBState × ℕ)
    (h : ∀ s ∈ l, entryFires md asOf s →
      alertKeyPresent acc.1 (generateEntryEventKey s asOf) ∧
        positionPresent acc.1 s asOf) :
    l.foldl (entryStep md now asOf) acc = acc :=
  foldl_congr_id _ _ _ (fun s hs => entryStep_noop md now asOf acc s (h s hs))

/-! ### Exit-step lemmas -/

/-- The exit evaluation takes action on this snapshot row: the close price is
available and one of the exit conditions holds. Depends only on the row's
own fields and the market data. -/
def exitActs (md : MarketData) (asOf : Date) (p : PositionRow) : Prop :=
  ∃ c r, md.closePrice p.symbol asOf = .ok (some c) ∧
    evalExitReason (c / p.entry_price - 1) (dateDiffDays asOf p.entry_date) = some r

theorem alertKeyPresent_setPositions (st : DBState) (ps : List PositionRow)
    (k : String) :
    alertKeyPresent { st with positions := ps } k ↔ alertKeyPresent st k :=
  Iff.rfl

/-- Case shape of one exit iteration: either nothing acts (error, missing
price, or no exit reason) and the accumulator is unchanged, or an exit
reason fires, the matching row is closed and the alert insert runs. -/
theorem exitStep_eq (md : MarketData) (now : ℤ) (asOf : Date)
    (acc : DBState × ℕ) (p : PositionRow) :
    (¬ exitActs md asOf p ∧ exitStep md now asOf acc p = acc) ∨
    ∃ c r, md.closePrice p.symbol asOf = .ok (some c) ∧
      evalExitReason (c / p.entry_price - 1) (dateDiffDays asOf p.entry_date) = some r ∧
      exitStep md now asOf acc p =
        ((insertAlertIfAbsent
            { acc.1 with positions := acc.1.positions.map (closeRow p.id asOf c r.value) }
            (generateExitEventKey p.symbol p.entry_date asOf r.value)
            AlertType.EXIT.value p.symbol asOf
            (formatExitMessage p.symbol asOf r.value (c / p.entry_price - 1) c
              (dateDiffDays asOf p.entry_date)) now).1,
          if (insertAlertIfAbsent
              { acc.1 with positions := acc.1.positions.map (closeRow p.id asOf c r.value) }
              (generateExitEventKey p.symbol p.entry_date asOf r.value)
              AlertType.EXIT.value p.symbol asOf
              (formatExitMessage p.symbol asOf r.value (c / p.entry_price - 1) c
                (dateDiffDays asOf p.entry_date)) now).2
          then acc.2 + 1 else acc.2) := by
  unfold exitStep
  split
  · rename_i e heq
    refine Or.inl ⟨?_, rfl⟩
    rintro ⟨c, r, hc, -⟩
    rw [heq] at hc
    exact absurd hc (by simp)
  · rename_i heq
    refine Or.inl ⟨?_, rfl⟩
    rintro ⟨c, r, hc, -⟩
    rw [heq] at hc
    exact absurd hc (by simp)
  · rename_i c heq
    dsimp only
    split
    · rename_i hev
      refine Or.inl ⟨?_, rfl⟩
      rintro ⟨c', r', hc', hev'⟩
      rw [heq] at hc'
      obtain rfl : c = c' := by simpa using hc'
      rw [hev] at hev'
      exact absurd hev' (by simp)
    · rename_i r hev
      exact Or.inr ⟨c, r, heq, hev, rfl⟩

theorem exitStep_cache (md : MarketData) (now : ℤ) (asOf : Date)
    (acc : DBState × ℕ) (p : PositionRow) :
    (exitStep md now asOf acc p).1.cache = acc.1.cache := by
  rcases exitStep_eq md now asOf acc p with ⟨-, h⟩ | ⟨c, r, -, -, h⟩ <;> rw [h]
  rw [insertAlertIfAbsent_cache]

theorem exitStep_mono_alert (md : MarketData) (now : ℤ) (asOf : Date)
    (acc : DBState × ℕ) (p : PositionRow) {k : String}
    (h : alertKeyPresent acc.1 k) :
    alertKeyPresent (exitStep md now asOf acc p).1 k := by
  rcases exitStep_eq md now asOf acc p with ⟨-, he⟩ | ⟨c, r, -, -, he⟩ <;> rw [he]
  · exact h
  · exact insertAlertIfAbsent_mono _ _ _ _ _ _ _
      ((alertKeyPresent_setPositions _ _ _).mpr h)

theorem exitStep_forward (md : MarketData) (now : ℤ) (asOf : Date)
    (acc : DBState × ℕ) (p : PositionRow) :
    ∀ q ∈ acc.1.positions, ∃ q' ∈ (exitStep md now asOf acc p).1.positions,
      q'.id = q.id ∧ q'.symbol = q.symbol ∧ q'.entry_date = q.entry_date ∧
      q'.entry_price = q.entry_price ∧
      (q.status = PositionStatus.CLOSED.value →
        q'.status = PositionStatus.CLOSED.value) := by
  intro q hq
  rcases exitStep_eq md now asOf acc p with ⟨-, he⟩ | ⟨c, r, -, -, he⟩ <;> rw [he]
  · exact ⟨q, hq, rfl, rfl, rfl, rfl, fun h => h⟩
  · rw [insertAlertIfAbsent_positions]
    exact ⟨closeRow p.id asOf c r.value q,
      List.mem_map_of_mem _ hq, closeRow_id .., closeRow_symbol ..,
      closeRow_entry_date .., closeRow_entry_price ..,
      fun h => closeRow_keeps_closed _ _ _ _ _ h⟩

theorem exitStep_backward (md : MarketData) (now : ℤ) (asOf : Date)
    (acc : DBState × ℕ) (p : PositionRow) :
    ∀ q' ∈ (exitStep md now asOf acc p).1.positions, ∃ q ∈ acc.1.positions,
      q'.id = q.id ∧
      (q'.status = PositionStatus.OPEN.value → q' = q) ∧
      (q.status = PositionStatus.CLOSED.value →
        q'.status = PositionStatus.CLOSED.value) := by
  intro q' hq'
  rcases exitStep_eq md now asOf acc p with ⟨-, he⟩ | ⟨c, r, -, -, he⟩
  · rw [he] at hq'
    exact ⟨q', hq', rfl, fun _ => rfl, fun h => h⟩
  · rw [he, insertAlertIfAbsent_positions] at hq'
    obtain ⟨q, hq, rfl⟩ := List.mem_map.mp hq'
    exact ⟨q, hq, closeRow_id .., fun h => closeRow_of_open _ _ _ _ _ h,
      fun h => closeRow_keeps_closed _ _ _ _ _ h⟩

theorem exitStep_noop (md : MarketData) (now : ℤ) (asOf : Date)
    (acc : DBState × ℕ) (p : PositionRow) (h : ¬ exitActs md asOf p) :
    exitStep md now asOf acc p = acc := by
  rcases exitStep_eq md now asOf acc p with ⟨-, he⟩ | ⟨c, r, hc, hev, -⟩
  · exact he
  · exact absurd ⟨c, r, hc, hev⟩ h

theorem exitStep_closes (md : MarketData) (now : ℤ) (asOf : Date)
    (acc : DBState × ℕ) (p : PositionRow) (h : exitActs md asOf p) :
    ∀ q' ∈ (exitStep md now asOf acc p).1.positions, q'.id = p.id →
      q'.status = PositionStatus.CLOSED.value := by
  intro q' hq' hid
  rcases exitStep_eq md now asOf acc p with ⟨hna, -⟩ | ⟨c, r, -, -, he⟩
  · exact absurd h hna
  · rw [he, insertAlertIfAbsent_positions] at hq'
    obtain ⟨q, hq, rfl⟩ := List.mem_map.mp hq'
    exact closeRow_closes _ _ _ _ _ (by rw [← closeRow_id p.id asOf c r.value q, hid])

/-! ### Exit-fold lemmas -/

theorem exitFold_cache (md : MarketData) (now : ℤ) (asOf : Date)
    (l : List PositionRow) :
    ∀ acc : DBState × ℕ,
      (l.foldl (exitStep md now asOf) acc).1.cache = acc.1.cache := by
  induction l with
  | nil => intro acc; rfl
  | cons p rest ih =>
      intro acc
      rw [List.foldl_cons, ih (exitStep md now asOf acc p), exitStep_cache]

theorem exitFold_mono_alert (md : MarketData) (now : ℤ) (asOf : Date)
    (l : List PositionRow) {k : String} :
    ∀ acc : DBState × ℕ, alertKeyPresent acc.1 k →
      alertKeyPresent ((l.foldl (exitStep md now asOf) acc)).1 k := by
  induction l with
  | nil => intro acc h; exact h
  | cons p rest ih =>
      intro acc h
      exact ih _ (exitStep_mono_alert md now asOf acc p h)

theorem exitFold_mono_pos (md : MarketData) (now : ℤ) (asOf : Date)
    (l : List PositionRow) {sym' : String} {d' : Date} :
    ∀ acc : DBState × ℕ, positionPresent acc.1 sym' d' →
      positionPresent ((l.foldl (exitStep md now asOf) acc)).1 sym' d' := by
  induction l with
  | nil => intro acc h; exact h
  | cons p rest ih =>
      intro acc h
      refine ih _ ?_
      obtain ⟨q, hq, hsym, hdate⟩ := h
      obtain ⟨q', hq', -, hsym', hdate', -, -⟩ :=
        exitStep_forward md now asOf acc p q hq
      exact ⟨q', hq', by rw [hsym', hsym], by rw [hdate', hdate]⟩

theorem exitFold_open_sub (md : MarketData) (now : ℤ) (asOf : Date)
    (l : List PositionRow) :
    ∀ acc : DBState × ℕ, ∀ q' ∈ (l.foldl (exitStep md now asOf) acc).1.positions,
      q'.status = PositionStatus.OPEN.value → q' ∈ acc.1.positions := by
  induction l with
  | nil => intro acc q' hq' _; exact hq'
  | cons p rest ih =>
      intro acc q' hq' hopen
      have hmid := ih _ q' hq' hopen
      obtain ⟨q, hq, -, heq, -⟩ := exitStep_backward md now asOf acc p q' hmid
      rw [heq hopen]
      exact hq

theorem exitFold_closed_persist (md : MarketData) (now : ℤ) (asOf : Date)
    (l : List PositionRow) :
    ∀ acc : DBState × ℕ, ∀ i : ℕ,
      (∀ q ∈ acc.1.positions, q.id = i → q.status = PositionStatus.CLOSED.value) →
      ∀ q' ∈ (l.foldl (exitStep md now asOf) acc).1.positions, q'.id = i →
        q'.status = PositionStatus.CLOSED.value := by
  induction l with
  | nil => intro acc i h q' hq' hid; exact h q' hq' hid
  | cons p rest ih =>
      intro acc i h q' hq' hid
      refine ih _ i ?_ q' hq' hid
      intro q hq hqid
      obtain ⟨q0, hq0, hid0, -, hcl⟩ := exitStep_backward md now asOf acc p q hq
      exact hcl (h q0 hq0 (by rw [← hid0, hqid]))

theorem exitFold_closes (md : MarketData) (now : ℤ) (asOf : Date)
    (l : List PositionRow) :
    ∀ acc : DBState × ℕ, ∀ p ∈ l, exitActs md asOf p →
      ∀ q' ∈ (l.foldl (exitStep md now asOf) acc).1.positions, q'.id = p.id →
        q'.status = PositionStatus.CLOSED.value := by
  induction l with
  | nil => intro acc p hp; exact absurd hp (List.not_mem_nil p)
  | cons p0 rest ih =>
      intro acc p hp hacts q' hq' hid
      rw [List.foldl_cons] at hq'
      rcases List.mem_cons.mp hp with rfl | hmem
      · exact exitFold_closed_persist md now asOf rest _ p.id
          (exitStep_closes md now asOf acc p hacts) q' hq' hid
      · exact ih _ p hmem hacts q' hq' hid

/-! ### Universe-cache lemmas -/

theorem minUpdatedAt_const (now : ℤ) (s : String) (ss : List String) :
    minUpdatedAt ⟨s, now⟩ (ss.map (fun x => ⟨x, now⟩)) = now := by
  unfold minUpdatedAt
  dsimp only
  induction ss with
  | nil => rfl
  | cons a rest ih => simpa using ih

theorem getUniverse_fresh (md : MarketData) (now ttl : ℤ) (e : CacheEntry)
    (es : List CacheEntry) (hf : now - minUpdatedAt e es < ttl) :
    getUniverse md now ttl (e :: es) = ((e :: es).map CacheEntry.symbol, e :: es) := by
  unfold getUniverse
  simp [hf]

theorem getUniverse_stale_fetch (md : MarketData) (now ttl : ℤ)
    (c : List CacheEntry)
    (hstale : ∀ e es, c = e :: es → ¬(now - minUpdatedAt e es < ttl))
    (hsp : ¬ md.sp500.isEmpty = true) :
    getUniverse md now ttl c =
      (md.sp500, md.sp500.map (fun s => ⟨s, now⟩)) := by
  unfold getUniverse
  cases c with
  | nil => simp [hsp]
  | cons e es => simp [hstale e es rfl, hsp]

theorem getUniverse_stale_fallback (md : MarketData) (now ttl : ℤ)
    (e : CacheEntry) (es : List CacheEntry)
    (hstale : ¬(now - minUpdatedAt e es < ttl))
    (hsp : md.sp500.isEmpty = true) :
    getUniverse md now ttl (e :: es) = ((e :: es).map CacheEntry.symbol, e :: es) := by
  unfold getUniverse
  simp [hstale, hsp]

theorem getUniverse_empty (md : MarketData) (now ttl : ℤ)
    (hsp : md.sp500.isEmpty = true) :
    getUniverse md now ttl [] = ([], []) := by
  unfold getUniverse
  simp [hsp]

/-- Re-resolving the universe immediately after one resolution returns the
same symbols and leaves the cache exactly as it is. -/
theorem getUniverse_idem (md : MarketData) (now ttl : ℤ) (c : List CacheEntry) :
    getUniverse md now ttl ((getUniverse md now ttl c).2) =
      ((getUniverse md now ttl c).1, (getUniverse md now ttl c).2) := by
  by_cases hsp : md.sp500.isEmpty = true
  · -- empty fetch: the cache is never modified
    cases c with
    | nil => rw [getUniverse_empty md now ttl hsp, getUniverse_empty md now ttl hsp]
    | cons e es =>
        by_cases hf : now - minUpdatedAt e es < ttl
        · rw [getUniverse_fresh md now ttl e es hf, getUniverse_fresh md now ttl e es hf]
        · rw [getUniverse_stale_fallback md now ttl e es hf hsp,
            getUniverse_stale_fallback md now ttl e es hf hsp]
  · -- non-empty fetch available
    have hrefetch : ∀ c' : List CacheEntry,
        (∀ e es, c' = e :: es → ¬(now - minUpdatedAt e es < ttl)) →
        getUniverse md now ttl c' = (md.sp500, md.sp500.map (fun s => ⟨s, now⟩)) :=
      fun c' h => getUniverse_stale_fetch md now ttl c' h hsp
    have hcachefixed : getUniverse md now ttl (md.sp500.map (fun s => ⟨s, now⟩)) =
        (md.sp500, md.sp500.map (fun s => ⟨s, now⟩)) := by
      cases hsp500 : md.sp500 with
      | nil => rw [hsp500] at hsp; simp at hsp
      | cons s ss =>
          by_cases hf : now - minUpdatedAt ⟨s, now⟩ (ss.map (fun x => ⟨x, now⟩)) < ttl
          · rw [List.map_cons, getUniverse_fresh md now ttl _ _ hf]
            simp [hsp500, List.map_map]
            exact List.map_id ss
          · rw [List.map_cons, getUniverse_stale_fetch md now ttl _ ?_ hsp, hsp500,
              List.map_cons]
            intro e es heq
            rw [List.cons.injEq] at heq
            rw [← heq.1, ← heq.2]
            exact hf
    cases c with
    | nil =>
        rw [hrefetch [] (by intro e es h; exact absurd h (by simp))]
        exact hcachefixed
    | cons e es =>
        by_cases hf : now - minUpdatedAt e es < ttl
        · rw [getUniverse_fresh md now ttl e es hf, getUniverse_fresh md now ttl e es hf]
        · rw [hrefetch (e :: es) ?_]
          · exact hcachefixed
          · intro e' es' heq
            rw [List.cons.injEq] at heq
            rw [← heq.1, ← heq.2]
            exact hf

/-! ### Scan-level lemmas -/

theorem scanEntries_cache (md : MarketData) (now ttl : ℤ) (asOf : Date)
    (st : DBState) :
    (scanEntries md now ttl asOf st).1.cache = (getUniverse md now ttl st.cache).2 := by
  unfold scanEntries getSp500Symbols
  dsimp only
  split
  · rfl
  · rw [entryFold_cache]

theorem scanEntries_establishes (md : MarketData) (now ttl : ℤ) (asOf : Date)
    (st : DBState) :
    ∀ s ∈ (md.earnings asOf).filter
        (fun x => ((getUniverse md now ttl st.cache).1).contains x),
      entryFires md asOf s →
      alertKeyPresent (scanEntries md now ttl asOf st).1 (generateEntryEventKey s asOf) ∧
        positionPresent (scanEntries md now ttl asOf st).1 s asOf := by
  unfold scanEntries getSp500Symbols
  dsimp only
  split
  · rename_i hemp
    intro s hs hf
    rw [List.isEmpty_iff] at hemp
    rw [hemp] at hs
    simp [List.mem_filter] at hs
  · intro s hs hf
    exact entryFold_establishes md now asOf _ _ s hs hf

theorem scanEntries_noop (md : MarketData) (now ttl : ℤ) (asOf : Date)
    (st : DBState)
    (hc : (getUniverse md now ttl st.cache).2 = st.cache)
    (hpres : ∀ s ∈ (md.earnings asOf).filter
        (fun x => ((getUniverse md now ttl st.cache).1).contains x),
      entryFires md asOf s →
      alertKeyPresent st (generateEntryEventKey s asOf) ∧ positionPresent st s asOf) :
    scanEntries md now ttl asOf st = (st, 0) := by
  unfold scanEntries getSp500Symbols
  dsimp only
  have hstate : ({ st with cache := (getUniverse md now ttl st.cache).2 } : DBState) = st := by
    rw [hc]
  rw [hstate]
  split
  · rfl
  · exact entryFold_noop md now asOf _ (st, 0) hpres

theorem scanExits_cache (md : MarketData) (now : ℤ) (asOf : Date) (st : DBState) :
    (scanExits md now asOf st).1.cache = st.cache := by
  unfold scanExits
  rw [exitFold_cache]

theorem scanExits_mono_alert (md : MarketData) (now : ℤ) (asOf : Date)
    (st : DBState) {k : String} (h : alertKeyPresent st k) :
    alertKeyPresent (scanExits md now asOf st).1 k :=
  exitFold_mono_alert md now asOf (openPositions st) (st, 0) h

theorem scanExits_mono_pos (md : MarketData) (now : ℤ) (asOf : Date)
    (st : DBState) {sym' : String} {d' : Date} (h : positionPresent st sym' d') :
    positionPresent (scanExits md now asOf st).1 sym' d' :=
  exitFold_mono_pos md now asOf (openPositions st) (st, 0) h

/-- Any position still OPEN after an exit scan was evaluated by that scan
(it was in the snapshot) and its evaluation took no action. -/
theorem scanExits_open_noacts (md : MarketData) (now : ℤ) (asOf : Date)
    (st : DBState) :
    ∀ q ∈ (scanExits md now asOf st).1.positions,
      q.status = PositionStatus.OPEN.value → ¬ exitActs md asOf q := by
  intro q hq hopen hacts
  have hqin : q ∈ st.positions :=
    exitFold_open_sub md now asOf (openPositions st) (st, 0) q hq hopen
  have hql : q ∈ openPositions st := by
    unfold openPositions
    rw [List.mem_filter]
    exact ⟨hqin, by simp [hopen]⟩
  have hclosed := exitFold_closes md now asOf (openPositions st) (st, 0)
    q hql hacts q hq rfl
  have : PositionStatus.OPEN.value = PositionStatus.CLOSED.value := by
    rw [← hopen, hclosed]
  exact absurd this (by simp [PositionStatus.value])

theorem scanExits_noop (md : MarketData) (now : ℤ) (asOf : Date) (st : DBState)
    (h : ∀ q ∈ openPositions st, ¬ exitActs md asOf q) :
    scanExits md now asOf st = (st, 0) := by
  unfold scanExits
  exact foldl_congr_id _ _ _ (fun p hp => exitStep_noop md now asOf (st, 0) p (h p hp))

/-! ### Claim theorem: idempotency of the daily job -/

/-- C1: running the daily job twice in sequence for the same date, with the
same market data (and at the same clock reading `now`), leaves every table of
the database exactly as after the first run — in particular the position rows
and alert rows are identical — and the second invocation reports
`(newEntryAlerts, newExitAlerts) = (0, 0)`. -/
theorem run_daily_job_idempotent (md : MarketData) (now ttl : ℤ) (asOf : Date)
    (st : DBState) :
    runDailyJob md now ttl asOf ((runDailyJob md now ttl asOf st).1) =
      ((runDailyJob md now ttl asOf st).1, 0, 0) := by
  have hrun1 : (runDailyJob md now ttl asOf st).1 =
      (scanExits md now asOf (scanEntries md now ttl asOf st).1).1 := rfl
  rw [hrun1]
  set stE := (scanEntries md now ttl asOf st).1 with hEdef
  set stF := (scanExits md now asOf stE).1 with hFdef
  have hFcache : stF.cache = (getUniverse md now ttl st.cache).2 := by
    rw [hFdef, scanExits_cache, hEdef, scanEntries_cache]
  have hu1 : (getUniverse md now ttl stF.cache).1 =
      (getUniverse md now ttl st.cache).1 := by
    rw [hFcache]
    exact congrArg Prod.fst (getUniverse_idem md now ttl st.cache)
  have hu2 : (getUniverse md now ttl stF.cache).2 = stF.cache := by
    rw [hFcache]
    exact congrArg Prod.snd (getUniverse_idem md now ttl st.cache)
  have hpres : ∀ s ∈ (md.earnings asOf).filter
      (fun x => ((getUniverse md now ttl stF.cache).1).contains x),
      entryFires md asOf s →
      alertKeyPresent stF (generateEntryEventKey s asOf) ∧
        positionPresent stF s asOf := by
    rw [hu1]
    intro s hs hf
    obtain ⟨hk, hp⟩ := scanEntries_establishes md now ttl asOf st s hs hf
    rw [← hEdef] at hk hp
    constructor
    · rw [hFdef]
      exact scanExits_mono_alert md now asOf stE hk
    · rw [hFdef]
      exact scanExits_mono_pos md now asOf stE hp
  have hE2 : scanEntries md now ttl asOf stF = (stF, 0) :=
    scanEntries_noop md now ttl asOf stF hu2 hpres
  have hX2 : scanExits md now asOf stF = (stF, 0) := by
    apply scanExits_noop
    intro q hq
    have hqmem : q ∈ stF.positions := (List.mem_filter.mp hq).1
    have hopen : q.status = PositionStatus.OPEN.value := by
      have h2 := (List.mem_filter.mp hq).2
      simpa using h2
    rw [hFdef] at hqmem
    exact scanExits_open_noacts md now asOf stE q hqmem hopen
  unfold runDailyJob
  simp [hE2, hX2]

/-! ### Claim theorem: universe cache -/

/-- C6: the universe resolution returns the cached symbols whenever the cache
is non-empty and younger (by its oldest entry) than the TTL, with no state
change; otherwise it fetches — a non-empty fetch replaces the entire cache
and is returned, an empty fetch returns the existing (possibly stale) cache
when one exists, and yields empty only when the cache is empty too. -/
theorem get_universe_spec (md : MarketData) (now ttl : ℤ) (st : DBState) :
    (∀ e es, st.cache = e :: es → now - minUpdatedAt e es < ttl →
      getSp500Symbols md now ttl st = (st.cache.map CacheEntry.symbol, st)) ∧
    ((∀ e es, st.cache = e :: es → ¬(now - minUpdatedAt e es < ttl)) →
      md.sp500 ≠ [] →
      getSp500Symbols md now ttl st =
        (md.sp500, { st with cache := md.sp500.map (fun s => ⟨s, now⟩) })) ∧
    (∀ e es, st.cache = e :: es → ¬(now - minUpdatedAt e es < ttl) →
      md.sp500 = [] →
      getSp500Symbols md now ttl st = (st.cache.map CacheEntry.symbol, st)) ∧
    (st.cache = [] → md.sp500 = [] →
      getSp500Symbols md now ttl st = ([], st)) := by
  refine ⟨?_, ?_, ?_, ?_⟩
  · intro e es hc hf
    unfold getSp500Symbols
    rw [hc, getUniverse_fresh md now ttl e es hf, ← hc]
  · intro hstale hsp
    unfold getSp500Symbols
    rw [getUniverse_stale_fetch md now ttl st.cache hstale (by simpa using hsp)]
  · intro e es hc hf hsp
    unfold getSp500Symbols
    rw [hc, getUniverse_stale_fallback md now ttl e es hf (by simp [hsp]), ← hc]
  · intro hc hsp
    unfold getSp500Symbols
    rw [hc, getUniverse_empty md now ttl (by simp [hsp]), ← hc]

/-- A market-data source whose constituents fetch fails (comes back empty). -/
def mdFailingFetch : MarketData :=
  ⟨[], fun _ => [], fun _ _ => .error (), fun _ _ => .error ()⟩

/-- A state whose universe cache was populated 25 hours ago (timestamps in
hours). -/
def stStaleCache : DBState :=
  ⟨[], [], [⟨"AAPL", 0⟩], 0, 0⟩

/-- Witness for C6: the spec scenario — cache populated 25h ago, ttl = 24h,
failing fresh fetch — returns the stale cached universe, not empty. -/
theorem get_universe_spec_witness :
    ¬(25 - minUpdatedAt ⟨"AAPL", 0⟩ [] < 24) ∧
    getSp500Symbols mdFailingFetch 25 24 stStaleCache = (["AAPL"], stStaleCache) := by
  refine ⟨by decide, ?_⟩
  exact (get_universe_spec mdFailingFetch 25 24 stStaleCache).2.2.1 ⟨"AAPL", 0⟩ []
    rfl (by decide) rfl

/-! ### Claim theorems: alert acknowledgment -/

theorem find?_map_markSent (alerts : List AlertRow) (alertId : ℕ) (now : ℤ) :
    (alerts.map (fun a =>
        if a.id == alertId then { a with sent_at := some now } else a)).find?
        (fun a => a.id == alertId) =
      (alerts.find? (fun a => a.id == alertId)).map
        (fun a => if a.id == alertId then { a with sent_at := some now } else a) := by
  rw [List.find?_map]
  have hcomp : ((fun a : AlertRow => a.id == alertId) ∘ (fun a =>
      if a.id == alertId then { a with sent_at := some now } else a)) =
      (fun a : AlertRow => a.id == alertId) := by
    funext x
    simp only [Function.comp]
    by_cases hx : (x.id == alertId) = true
    · rw [if_pos hx]
    · rw [if_neg hx]
  rw [hcomp]

/-- C7: `markAlertSent` 404s exactly when no alert has the id; marking a
not-yet-sent alert succeeds reporting `sent_at = now`; marking an
already-sent alert succeeds with the stored `sent_at` and no state change;
hence a second call after any successful call returns the very same
`sent_at`, never errors, and leaves the state untouched. -/
theorem mark_alert_sent_spec (st : DBState) (alertId : ℕ) (now now2 : ℤ) :
    ((∀ a ∈ st.alerts, a.id ≠ alertId) → markAlertSent st alertId now = .error ()) ∧
    (∀ a, st.alerts.find? (fun x => x.id == alertId) = some a → a.sent_at = none →
      ∃ st', markAlertSent st alertId now = .ok (now, st')) ∧
    (∀ a t, st.alerts.find? (fun x => x.id == alertId) = some a → a.sent_at = some t →
      markAlertSent st alertId now = .ok (t, st)) ∧
    (∀ t st', markAlertSent st alertId now = .ok (t, st') →
      markAlertSent st' alertId now2 = .ok (t, st')) := by
  refine ⟨?_, ?_, ?_, ?_⟩
  · intro h
    have hf : st.alerts.find? (fun x => x.id == alertId) = none := by
      rw [List.find?_eq_none]
      intro a ha
      simpa using h a ha
    simp only [markAlertSent, hf]
  · intro a hf hnone
    refine ⟨{ st with alerts := st.alerts.map (fun b =>
        if b.id == alertId then { b with sent_at := some now } else b) }, ?_⟩
    simp only [markAlertSent, hf, hnone]
  · intro a t hf hsome
    simp only [markAlertSent, hf, hsome]
  · intro t st' h
    cases hf : st.alerts.find? (fun x => x.id == alertId) with
    | none =>
        simp only [markAlertSent, hf] at h
        exact absurd h (by simp)
    | some alert =>
        have hpred := List.find?_some hf
        cases hsent : alert.sent_at with
        | some t0 =>
            simp only [markAlertSent, hf, hsent] at h
            rw [Except.ok.injEq, Prod.mk.injEq] at h
            obtain ⟨ht, hst⟩ := h
            rw [← hst, ← ht]
            simp only [markAlertSent, hf, hsent]
        | none =>
            simp only [markAlertSent, hf, hsent] at h
            rw [Except.ok.injEq, Prod.mk.injEq] at h
            obtain ⟨ht, hst⟩ := h
            rw [← hst, ← ht]
            simp only [markAlertSent]
            rw [find?_map_markSent, hf, Option.map_some', if_pos hpred]

/-- A pending (unsent) alert row and a one-alert store for the witness. -/
def alertFixture : AlertRow :=
  ⟨1, "ENTRY|AAPL|2025-12-01", "ENTRY", "AAPL", ⟨2025, 12, 1⟩, "m", 0, none⟩

def stAlertFixture : DBState :=
  ⟨[], [alertFixture], [], 0, 2⟩

/-- Witness for C7: marking alert 1 sets `sent_at = 5`; marking it again (at
a later time 9) returns the same `sent_at = 5` and the same state; an unknown
id 404s. -/
theorem mark_alert_sent_spec_witness :
    (∃ st', markAlertSent stAlertFixture 1 5 = .ok (5, st') ∧
      markAlertSent st' 1 9 = .ok (5, st')) ∧
    markAlertSent stAlertFixture 2 5 = .error () := by
  constructor
  · have h1 : markAlertSent stAlertFixture 1 5 =
        .ok (5, { stAlertFixture with
          alerts := [{ alertFixture with sent_at := some 5 }] }) := rfl
    exact ⟨_, h1, (mark_alert_sent_spec stAlertFixture 1 5 9).2.2.2 5 _ h1⟩
  · exact (mark_alert_sent_spec stAlertFixture 2 5 0).1 (by decide)

/-- C10: marking a not-yet-sent alert touches only that alert row's
`sent_at`: its other columns keep their values, every other alert row is
unchanged, and the positions table and cache are unchanged. -/
theorem mark_alert_sent_frame (st : DBState) (alertId : ℕ) (now : ℤ) (a : AlertRow)
    (hf : st.alerts.find? (fun x => x.id == alertId) = some a)
    (hun : a.sent_at = none)
    (hnodup : (st.alerts.map AlertRow.id).Nodup) :
    ∃ st', markAlertSent st alertId now = .ok (now, st') ∧
      st'.positions = st.positions ∧
      st'.cache = st.cache ∧
      st'.nextPositionId = st.nextPositionId ∧
      st'.nextAlertId = st.nextAlertId ∧
      (∀ b ∈ st.alerts, b.id ≠ alertId → b ∈ st'.alerts) ∧
      (∀ b ∈ st'.alerts, b.id ≠ alertId → b ∈ st.alerts) ∧
      (∀ b ∈ st'.alerts, b.id = alertId →
        b.event_key = a.event_key ∧ b.alert_type = a.alert_type ∧
        b.symbol = a.symbol ∧ b.as_of = a.as_of ∧ b.message = a.message ∧
        b.created_at = a.created_at ∧ b.sent_at = some now) := by
  have ha_mem : a ∈ st.alerts := List.mem_of_find?_eq_some hf
  have ha_id : a.id = alertId := by simpa using List.find?_some hf
  refine ⟨{ st with alerts := st.alerts.map (fun b =>
      if b.id == alertId then { b with sent_at := some now } else b) }, ?_, rfl, rfl,
      rfl, rfl, ?_, ?_, ?_⟩
  · simp only [markAlertSent, hf, hun]
  · intro b hb hne
    have hbeq : (b.id == alertId) = false := by simpa using hne
    have : (if b.id == alertId then { b with sent_at := some now } else b) = b := by
      rw [hbeq]
      rfl
    rw [← this]
    exact List.mem_map_of_mem _ hb
  · intro b hb hne
    obtain ⟨c, hc, hcb⟩ := List.mem_map.mp hb
    by_cases hcid : (c.id == alertId) = true
    · rw [if_pos hcid] at hcb
      exfalso
      apply hne
      rw [← hcb]
      simpa using hcid
    · rw [if_neg hcid] at hcb
      rw [← hcb]
      exact hc
  · intro b hb hid
    obtain ⟨c, hc, hcb⟩ := List.mem_map.mp hb
    by_cases hcid : (c.id == alertId) = true
    · have hceq : c = a := by
        apply List.inj_on_of_nodup_map hnodup hc ha_mem
        rw [ha_id]
        simpa using hcid
      rw [if_pos hcid] at hcb
      rw [← hcb, hceq]
      exact ⟨rfl, rfl, rfl, rfl, rfl, rfl, rfl⟩
    · exfalso
      rw [if_neg hcid] at hcb
      apply hcid
      rw [hcb]
      simp [hid]

/-- Witness for C10: marking the pending fixture alert rewrites only its
`sent_at`. -/
theorem mark_alert_sent_frame_witness :
    stAlertFixture.alerts.find? (fun x => x.id == 1) = some alertFixture ∧
    alertFixture.sent_at = none ∧
    (stAlertFixture.alerts.map AlertRow.id).Nodup ∧
    ∃ st', markAlertSent stAlertFixture 1 5 = .ok (5, st') ∧
      st'.positions = stAlertFixture.positions := by
  refine ⟨rfl, rfl, by decide, ?_⟩
  obtain ⟨st', h1, h2, -⟩ :=
    mark_alert_sent_frame stAlertFixture 1 5 alertFixture rfl rfl (by decide)
  exact ⟨st', h1, h2⟩

/-! ### Claim theorem: per-item error isolation -/

theorem insertAlertIfAbsent_alerts_sub (st : DBState) (k t s : String)
    (d : Date) (m : String) (now : ℤ) :
    ∀ a ∈ st.alerts, a ∈ (insertAlertIfAbsent st k t s d m now).1.alerts := by
  intro a ha
  unfold insertAlertIfAbsent
  split
  · exact ha
  · exact List.mem_append_left _ ha

theorem exitStep_alerts_sub (md : MarketData) (now : ℤ) (asOf : Date)
    (acc : DBState × ℕ) (p : PositionRow) :
    ∀ a ∈ acc.1.alerts, a ∈ (exitStep md now asOf acc p).1.alerts := by
  intro a ha
  rcases exitStep_eq md now asOf acc p with ⟨-, he⟩ | ⟨c, r, -, -, he⟩ <;> rw [he]
  · exact ha
  · exact insertAlertIfAbsent_alerts_sub _ _ _ _ _ _ _ a ha

theorem exitFold_alerts_sub (md : MarketData) (now : ℤ) (asOf : Date)
    (l : List PositionRow) :
    ∀ acc : DBState × ℕ, ∀ a ∈ acc.1.alerts,
      a ∈ ((l.foldl (exitStep md now asOf) acc)).1.alerts := by
  induction l with
  | nil => intro acc a ha; exact ha
  | cons p rest ih =>
      intro acc a ha
      exact ih _ a (exitStep_alerts_sub md now asOf acc p a ha)

theorem exitFold_forward (md : MarketData) (now : ℤ) (asOf : Date)
    (l : List PositionRow) :
    ∀ acc : DBState × ℕ, ∀ q ∈ acc.1.positions,
      ∃ q' ∈ (l.foldl (exitStep md now asOf) acc).1.positions,
        q'.id = q.id ∧ q'.symbol = q.symbol ∧ q'.entry_date = q.entry_date ∧
          q'.entry_price = q.entry_price := by
  induction l with
  | nil => intro acc q hq; exact ⟨q, hq, rfl, rfl, rfl, rfl⟩
  | cons p rest ih =>
      intro acc q hq
      obtain ⟨q1, hq1, hid1, hsym1, hdate1, hprice1, -⟩ :=
        exitStep_forward md now asOf acc p q hq
      obtain ⟨q2, hq2, hid2, hsym2, hdate2, hprice2⟩ := ih _ q1 hq1
      exact ⟨q2, hq2, by rw [hid2, hid1], by rw [hsym2, hsym1],
        by rw [hdate2, hdate1], by rw [hprice2, hprice1]⟩

/-- C8: in both scan phases an erroring item is skipped — iterating a batch
containing it is the same as iterating the batch without it, so no failure
aborts the remaining items; the job's entry-alert count is produced by the
entry phase alone, and the exit phase never removes entry-phase results
(alerts persist, position rows persist with their identity and entry
fields). -/
theorem scan_error_isolation (md : MarketData) (now ttl : ℤ) (asOf : Date) :
    (∀ bad, md.priceData bad asOf = .error () →
      ∀ (l1 l2 : List String) (acc : DBState × ℕ),
        (l1 ++ bad :: l2).foldl (entryStep md now asOf) acc =
          (l1 ++ l2).foldl (entryStep md now asOf) acc) ∧
    (∀ bad : PositionRow, md.closePrice bad.symbol asOf = .error () →
      ∀ (l1 l2 : List PositionRow) (acc : DBState × ℕ),
        (l1 ++ bad :: l2).foldl (exitStep md now asOf) acc =
          (l1 ++ l2).foldl (exitStep md now asOf) acc) ∧
    (∀ st : DBState,
      (runDailyJob md now ttl asOf st).2.1 = (scanEntries md now ttl asOf st).2) ∧
    (∀ st : DBState, ∀ a ∈ st.alerts, a ∈ (scanExits md now asOf st).1.alerts) ∧
    (∀ st : DBState, ∀ q ∈ st.positions,
      ∃ q' ∈ (scanExits md now asOf st).1.positions,
        q'.id = q.id ∧ q'.symbol = q.symbol ∧ q'.entry_date = q.entry_date ∧
          q'.entry_price = q.entry_price) := by
  refine ⟨?_, ?_, fun st => rfl, ?_, ?_⟩
  · intro bad herr l1 l2 acc
    have hstep : ∀ acc' : DBState × ℕ, entryStep md now asOf acc' bad = acc' := by
      intro acc'
      rcases entryStep_eq md now asOf acc' bad with he | ⟨c, p, hp, -, -⟩
      · exact he
      · rw [herr] at hp
        exact absurd hp (by simp)
    rw [List.foldl_append, List.foldl_append, List.foldl_cons, hstep]
  · intro bad herr l1 l2 acc
    have hstep : ∀ acc' : DBState × ℕ, exitStep md now asOf acc' bad = acc' := by
      intro acc'
      refine exitStep_noop md now asOf acc' bad ?_
      rintro ⟨c, r, hc, -⟩
      rw [herr] at hc
      exact absurd hc (by simp)
    rw [List.foldl_append, List.foldl_append, List.foldl_cons, hstep]
  · intro st a ha
    exact exitFold_alerts_sub md now asOf (openPositions st) (st, 0) a ha
  · intro st q hq
    exact exitFold_forward md now asOf (openPositions st) (st, 0) q hq

/-- A market-data source where symbol "BAD" raises on the price call and the
close-price call always raises (an exit-phase failure). -/
def mdOneBadSymbol : MarketData :=
  ⟨["GOOD", "BAD"], fun _ => ["BAD", "GOOD"],
    fun s _ => if s = "BAD" then .error () else .ok (some (88, 100)),
    fun _ _ => .error ()⟩

/-- Witness for C8: with symbol "BAD" raising, scanning ["BAD", "GOOD"] is
the same as scanning ["GOOD"] alone — the failure neither aborts the batch
nor changes the surviving symbol's processing. -/
theorem scan_error_isolation_witness :
    mdOneBadSymbol.priceData "BAD" ⟨2025, 1, 15⟩ = .error () ∧
    (["BAD", "GOOD"].foldl (entryStep mdOneBadSymbol 0 ⟨2025, 1, 15⟩)
        ((⟨[], [], [], 0, 0⟩ : DBState), 0) =
      ["GOOD"].foldl (entryStep mdOneBadSymbol 0 ⟨2025, 1, 15⟩)
        ((⟨[], [], [], 0, 0⟩ : DBState), 0)) := by
  constructor
  · rfl
  · exact (scan_error_isolation mdOneBadSymbol 0 0 ⟨2025, 1, 15⟩).1 "BAD" rfl
      [] ["GOOD"] ((⟨[], [], [], 0, 0⟩ : DBState), 0)

end SemanticPush
